import Mathlib

/-!
# Verification of the ncr_numpy array-interchange codec specification

The repository ships fixture-generation drivers (`example/assets/genfiles.py`,
`examples/assets/genfiles.py`) that exercise a codec for the NPY single-array
format and the NPZ multi-array archive format.  The codec itself is not among
the visible sources, so every codec-level definition below is modelled from
the specification (each such definition says so in its doc comment) and the
claims are settled against that model.

Byte streams are `List Nat` with each byte `< 256`; text is ASCII, embedded
via `strBytes`.
-/

namespace NpyCodec

/-- A byte stream: a list of natural numbers, each conceptually `< 256`. -/
abbrev Bytes := List Nat

/-- ASCII bytes of a string literal. -/
def strBytes (s : String) : Bytes := s.data.map Char.toNat

/-! ## Decimal numerals

Shapes, byte widths and character counts are rendered in the header text as
canonical decimal numerals (no leading zeros).  `natChars` renders, `parseNat`
parses; both directions of the round trip are proved below. -/

/-- Little-endian decimal digits of `n`, with explicit fuel (structural
recursion, so the kernel can evaluate it). -/
def digitsAux : Nat → Nat → List Nat
  | 0, _ => []
  | _ + 1, 0 => []
  | fuel + 1, n + 1 => (n + 1) % 10 :: digitsAux fuel ((n + 1) / 10)

/-- Little-endian decimal digits of `n` (`natDigits 0 = []`). -/
def natDigits (n : Nat) : List Nat := digitsAux n n

/-- Value of a little-endian decimal digit list. -/
def valOfDigits : List Nat → Nat
  | [] => 0
  | d :: L => d + 10 * valOfDigits L

/-- ASCII bytes of the canonical decimal numeral for `n`. -/
def natChars (n : Nat) : Bytes :=
  if n = 0 then [48] else (natDigits n).reverse.map (· + 48)

/-- Is this byte an ASCII decimal digit? -/
def isDigitB (b : Nat) : Bool := decide (48 ≤ b) && decide (b ≤ 57)

/-- Parse a canonical decimal numeral off the front of a byte stream.
Fails on an empty digit run and on a leading zero (unless the numeral is
exactly `0`), so only canonical numerals are accepted. -/
def parseNat (s : Bytes) : Option (Nat × Bytes) :=
  match s.takeWhile isDigitB with
  | [] => none
  | d :: ds =>
    if d = 48 ∧ ds ≠ [] then none
    else some (valOfDigits (((d :: ds).map (· - 48)).reverse), s.dropWhile isDigitB)

theorem digitsAux_eq_digits (fuel n : Nat) (h : n ≤ fuel) :
    digitsAux fuel n = Nat.digits 10 n := by
  induction fuel generalizing n with
  | zero =>
    interval_cases n
    simp [digitsAux]
  | succ f ih =>
    match n with
    | 0 => simp [digitsAux]
    | m + 1 =>
      have hd : (m + 1) / 10 < m + 1 := Nat.div_lt_self (Nat.succ_pos m) (by norm_num)
      rw [digitsAux, ih _ (by omega), Nat.digits_def' (by norm_num) (Nat.succ_pos m)]

theorem natDigits_eq (n : Nat) : natDigits n = Nat.digits 10 n :=
  digitsAux_eq_digits n n (Nat.le_refl n)

theorem valOfDigits_eq_ofDigits (L : List Nat) : valOfDigits L = Nat.ofDigits 10 L := by
  induction L with
  | nil => simp [valOfDigits, Nat.ofDigits_nil]
  | cons d L ih => simp [valOfDigits, Nat.ofDigits_cons, ih]

theorem valOfDigits_natDigits (n : Nat) : valOfDigits (natDigits n) = n := by
  rw [valOfDigits_eq_ofDigits, natDigits_eq, Nat.ofDigits_digits]

/-- Every byte of a rendered numeral is an ASCII digit. -/
theorem natChars_digits (n : Nat) : ∀ b ∈ natChars n, isDigitB b = true := by
  intro b hb
  unfold natChars at hb
  split at hb
  · simp at hb
    simp [hb, isDigitB]
  · simp only [List.mem_map, List.mem_reverse] at hb
    obtain ⟨d, hd, rfl⟩ := hb
    rw [natDigits_eq] at hd
    have : d < 10 := Nat.digits_lt_base (by norm_num) hd
    simp [isDigitB]
    omega

theorem natChars_ne_nil (n : Nat) : natChars n ≠ [] := by
  unfold natChars
  split
  · simp
  · have h : Nat.digits 10 n ≠ [] := Nat.digits_ne_nil_iff_ne_zero.mpr (by assumption)
    rw [natDigits_eq]
    simpa using h

/-- `true` when the stream does not start with an ASCII digit (so a numeral
just before it cannot absorb any of its bytes). -/
def noDigitHead : Bytes → Bool
  | [] => true
  | b :: _ => !isDigitB b

theorem takeWhile_append_span (p : Nat → Bool) (xs ys : Bytes)
    (hx : ∀ x ∈ xs, p x = true) (hy : ys.head?.all (fun b => !p b) = true) :
    (xs ++ ys).takeWhile p = xs ∧ (xs ++ ys).dropWhile p = ys := by
  induction xs with
  | nil =>
    simp only [List.nil_append]
    cases ys with
    | nil => simp
    | cons b ys =>
      simp only [List.head?_cons, Option.all_some, Bool.not_eq_true'] at hy
      simp [List.takeWhile_cons, List.dropWhile_cons, hy]
  | cons x xs ih =>
    have hpx : p x = true := hx x (by simp)
    have := ih (fun a ha => hx a (by simp [ha]))
    simp [List.takeWhile_cons, List.dropWhile_cons, hpx, this.1, this.2]

theorem mem_takeWhile_pred {p : Nat → Bool} {l : Bytes} {x : Nat}
    (h : x ∈ l.takeWhile p) : p x = true := by
  induction l with
  | nil => simp [List.takeWhile] at h
  | cons a l ih =>
    rw [List.takeWhile_cons] at h
    by_cases hp : p a = true
    · simp [hp] at h
      rcases h with rfl | h
      · exact hp
      · exact ih h
    · simp [hp] at h

theorem natChars_head_ne_zero {n : Nat} (hn : n ≠ 0) {d : Nat} {ds : Bytes}
    (h : natChars n = d :: ds) : d ≠ 48 := by
  have h1 : (natChars n).head? = some d := by rw [h]; rfl
  unfold natChars at h1
  rw [if_neg hn] at h1
  have hnil : natDigits n ≠ [] := by
    rw [natDigits_eq]
    exact Nat.digits_ne_nil_iff_ne_zero.mpr hn
  have hlast : (natDigits n).getLast hnil ≠ 0 := by
    have := Nat.getLast_digit_ne_zero 10 hn
    simp only [natDigits_eq]
    exact this
  rw [List.head?_map, List.head?_reverse, List.getLast?_eq_getLast _ hnil] at h1
  simp only [Option.map_some', Option.some.injEq] at h1
  omega

theorem valOfDigits_natChars (n : Nat) :
    valOfDigits (((natChars n).map (· - 48)).reverse) = n := by
  by_cases hn : n = 0
  · subst hn; rfl
  · unfold natChars
    rw [if_neg hn]
    simp only [List.map_reverse, List.map_map, List.reverse_reverse]
    have : ((· - 48) ∘ (· + 48) : Nat → Nat) = id := by
      funext x; simp
    rw [this, List.map_id]
    exact valOfDigits_natDigits n

/-- Round trip: a canonical numeral followed by a non-digit parses back. -/
theorem parseNat_complete (n : Nat) (r : Bytes) (hr : noDigitHead r = true) :
    parseNat (natChars n ++ r) = some (n, r) := by
  have hy : r.head?.all (fun b => !isDigitB b) = true := by
    cases r with
    | nil => rfl
    | cons b r => simpa [noDigitHead] using hr
  obtain ⟨htake, hdrop⟩ :=
    takeWhile_append_span isDigitB (natChars n) r (natChars_digits n) hy
  unfold parseNat
  rw [htake, hdrop]
  obtain ⟨d, ds, hds⟩ : ∃ d ds, natChars n = d :: ds := by
    cases h : natChars n with
    | nil => exact absurd h (natChars_ne_nil n)
    | cons d ds => exact ⟨d, ds, rfl⟩
  rw [hds]
  have hguard : ¬(d = 48 ∧ ds ≠ []) := by
    rintro ⟨rfl, hne⟩
    by_cases hn : n = 0
    · subst hn
      have h2 : (48 : Nat) :: [] = 48 :: ds := hds
      injection h2 with _ h3
      exact hne h3.symm
    · exact natChars_head_ne_zero hn hds rfl
  dsimp only
  rw [if_neg hguard]
  have := valOfDigits_natChars n
  rw [hds] at this
  rw [this]

/-- Canonicality: an accepted numeral parse consumed exactly the canonical
rendering of the value it returned, and stopped at a non-digit. -/
theorem parseNat_sound {s : Bytes} {n : Nat} {r : Bytes}
    (h : parseNat s = some (n, r)) :
    s = natChars n ++ r ∧ noDigitHead r = true := by
  unfold parseNat at h
  cases htake : s.takeWhile isDigitB with
  | nil => rw [htake] at h; exact absurd h (by simp)
  | cons d ds =>
    rw [htake] at h
    dsimp only at h
    by_cases hguard : d = 48 ∧ ds ≠ []
    · rw [if_pos hguard] at h; exact absurd h (by simp)
    · rw [if_neg hguard] at h
      simp only [Option.some.injEq, Prod.mk.injEq] at h
      obtain ⟨hval, hrest⟩ := h
      have hsplit : s = (d :: ds) ++ r := by
        rw [← hrest, ← htake, List.takeWhile_append_dropWhile]
      have hrhead : noDigitHead r = true := by
        have hh := List.head?_dropWhile_not isDigitB s
        rw [← hrest]
        cases hd : (s.dropWhile isDigitB).head? with
        | none =>
          cases hdw : s.dropWhile isDigitB with
          | nil => rfl
          | cons b l => rw [hdw] at hd; simp at hd
        | some b =>
          rw [hd] at hh
          cases hdw : s.dropWhile isDigitB with
          | nil => rfl
          | cons b' l =>
            rw [hdw] at hd
            simp only [List.head?_cons, Option.some.injEq] at hd
            subst hd
            simp [noDigitHead, hh]
      refine ⟨?_, hrhead⟩
      -- show the consumed digits are exactly `natChars n`
      have hdig : ∀ x ∈ d :: ds, isDigitB x = true := by
        intro x hx
        rw [← htake] at hx
        exact mem_takeWhile_pred hx
      have hlt : ∀ x ∈ ((d :: ds).map (· - 48)).reverse, x < 10 := by
        intro x hx
        simp only [List.mem_reverse, List.mem_map] at hx
        obtain ⟨b, hb, rfl⟩ := hx
        have := hdig b hb
        simp [isDigitB] at this
        omega
      have hchars : natChars n = d :: ds := by
        by_cases hd48 : d = 48 ∧ ds = []
        · obtain ⟨rfl, rfl⟩ := hd48
          have : n = 0 := by rw [← hval]; rfl
          subst this; rfl
        · -- general case: last digit of the reversed list is nonzero
          have hdne : d ≠ 48 := by
            rcases hguard2 : ds with _ | ⟨e, es⟩
            · intro hc; exact hd48 ⟨hc, hguard2⟩
            · intro hc; exact hguard ⟨hc, by simp [hguard2]⟩
          have hd0 : 48 ≤ d ∧ d ≤ 57 := by
            have := hdig d (by simp)
            simpa [isDigitB] using this
          have hlast : (((d :: ds).map (· - 48)).reverse).getLast? ≠ some 0 := by
            rw [← List.head?_reverse, List.reverse_reverse]
            simp only [List.map_cons, List.head?_cons, Option.some.injEq, ne_eq]
            omega
          have hLnil : ((d :: ds).map (· - 48)).reverse ≠ [] := by simp
          have hdg : Nat.digits 10 n = ((d :: ds).map (· - 48)).reverse := by
            rw [← hval, valOfDigits_eq_ofDigits]
            refine Nat.digits_ofDigits 10 (by norm_num) _ hlt ?_
            intro hne hc
            apply hlast
            rw [List.getLast?_eq_getLast _ hne, hc]
          have hnz : n ≠ 0 := by
            intro hc
            subst hc
            rw [Nat.digits_zero] at hdg
            exact hLnil hdg.symm
          unfold natChars
          rw [if_neg hnz, natDigits_eq, hdg, List.reverse_reverse, List.map_map]
          have heq : ∀ x ∈ d :: ds, ((· + 48) ∘ (· - 48)) x = x := by
            intro x hx
            have := hdig x hx
            simp [isDigitB] at this
            simp
            omega
          rw [List.map_congr_left heq]
          simp
      rw [hchars]; exact hsplit

/-! ## DescriptorCodec: the typed descriptor tree

Modelled from the spec: the codec source is not among the repository's visible
files, so `DType` below realises §3's tagged variant — Primitive, Complex,
FixedText and Structured (an ordered field list, arbitrarily nested).  Field
byte offsets are not modelled: §4.1's textual grammar carries no offset
syntax, so parsed types always use §3's default tightest packing. -/

/-- Endianness of a scalar token: `<`, `>`, `=`, or `|` (not applicable). -/
inductive Endian where
  | little
  | big
  | native
  | na
deriving DecidableEq

/-- Kind of a primitive scalar. -/
inductive PrimKind where
  | int
  | uint
  | float
  | boolean
deriving DecidableEq

/-- Encoding of a fixed-width text field: single-byte or wide-character. -/
inductive TextEnc where
  | singleByte
  | wideChar
deriving DecidableEq

mutual

/-- Modelled from the spec: §3's `DType` — a tagged variant describing an
element's binary layout.  `cplx` stores the per-component width; `text`
stores the character count. -/
inductive DType where
  | prim (k : PrimKind) (w : Nat) (e : Endian)
  | cplx (cw : Nat) (e : Endian)
  | text (enc : TextEnc) (count : Nat) (e : Endian)
  | structured (fs : Fields)

/-- An ordered sequence of named fields: name bytes, field type, sub-shape
(empty means a scalar field). -/
inductive Fields where
  | nil
  | cons (nm : Bytes) (ty : DType) (sub : List Nat) (rest : Fields)

end

/-- Marker byte for an endianness. -/
def endChar : Endian → Nat
  | .little => 60
  | .big => 62
  | .native => 61
  | .na => 124

/-- Kind letter byte for a primitive kind (`i`, `u`, `f`, `b`). -/
def kindChar : PrimKind → Nat
  | .int => 105
  | .uint => 117
  | .float => 102
  | .boolean => 98

/-- Product of a shape's dimensions; the empty shape yields 1. -/
def shapeProd (shape : List Nat) : Nat := shape.foldl (· * ·) 1

mutual

/-- Modelled from the spec: §3/§4.1 itemSize — primitive, complex and text
types compute directly from width × count; structured types pack tightly. -/
def itemSize : DType → Nat
  | .prim _ w _ => w
  | .cplx cw _ => 2 * cw
  | .text .singleByte n _ => n
  | .text .wideChar n _ => 4 * n
  | .structured fs => fieldsSize fs
termination_by structural d => d

/-- Total tight-packed byte size of a field list; each field contributes
`itemSize × (product of its sub-shape)`. -/
def fieldsSize : Fields → Nat
  | .nil => 0
  | .cons _ ty sub rest => shapeProd sub * itemSize ty + fieldsSize rest
termination_by structural fs => fs

end

/-- Canonical rendering of the items of a non-initial tuple segment,
including the closing parenthesis. -/
def serItemsMulti : List Nat → Bytes
  | [] => [41]
  | [n] => natChars n ++ [41]
  | n :: rest => natChars n ++ [44, 32] ++ serItemsMulti rest

/-- Canonical tuple rendering: `()`, `(3,)`, `(2, 3)`, … -/
def serTuple : List Nat → Bytes
  | [] => [40, 41]
  | [n] => 40 :: natChars n ++ [44, 41]
  | n :: rest => 40 :: natChars n ++ [44, 32] ++ serItemsMulti rest

mutual

/-- Modelled from the spec: §4.1 serialization — the deterministic textual
rendering of a descriptor.  A scalar token is quote, endianness marker, kind
letter, decimal width, quote (complex renders `2 × componentWidth`; text
renders the character count); a structured type renders its bracketed field
list. -/
def serDescr : DType → Bytes
  | .prim k w e => 39 :: endChar e :: kindChar k :: natChars w ++ [39]
  | .cplx cw e => 39 :: endChar e :: 99 :: natChars (2 * cw) ++ [39]
  | .text .singleByte n e => 39 :: endChar e :: 83 :: natChars n ++ [39]
  | .text .wideChar n e => 39 :: endChar e :: 85 :: natChars n ++ [39]
  | .structured fs => 91 :: (serFields fs ++ [93])
termination_by structural d => d

/-- Render a field list, fields separated by `, `; one field renders as
`('name', descr)` or `('name', descr, (sub,))`. -/
def serFields : Fields → Bytes
  | .nil => []
  | .cons nm ty sub rest =>
    (40 :: 39 :: nm ++ 39 :: 44 :: 32 :: serDescr ty ++
      (match sub with
       | [] => []
       | _ :: _ => 44 :: 32 :: serTuple sub) ++ [41]) ++
      (match rest with
       | .nil => []
       | .cons _ _ _ _ => [44, 32]) ++ serFields rest
termination_by structural fs => fs

end

/-- Render one field: `('name', descr)` or `('name', descr, (sub,))`. -/
def serField (nm : Bytes) (ty : DType) (sub : List Nat) : Bytes :=
  40 :: 39 :: nm ++ 39 :: 44 :: 32 :: serDescr ty ++
    (match sub with
     | [] => []
     | _ :: _ => 44 :: 32 :: serTuple sub) ++ [41]

/-- The field-list renderer in terms of the single-field renderer. -/
theorem serFields_cons (nm : Bytes) (ty : DType) (sub : List Nat) (rest : Fields) :
    serFields (.cons nm ty sub rest) =
      serField nm ty sub ++
        (match rest with
         | .nil => []
         | .cons _ _ _ _ => [44, 32]) ++ serFields rest := rfl

/-- May this byte appear in a field name?  (ASCII letters, digits, `_`.) -/
def nameByteOk (b : Nat) : Bool :=
  (decide (97 ≤ b) && decide (b ≤ 122)) || (decide (65 ≤ b) && decide (b ≤ 90)) ||
    (decide (48 ≤ b) && decide (b ≤ 57)) || decide (b = 95)

/-- Is this a byte width the grammar supports for `i`/`u`/`f` tokens? -/
def widthOk (w : Nat) : Bool := w = 1 || w = 2 || w = 4 || w = 8

/-- Marker usable on a multi-byte token (`<`, `>`, `=`). -/
def multiByteEnd : Endian → Bool
  | .little => true
  | .big => true
  | .native => true
  | .na => false

/-- Is the marker the "not applicable" one (`|`)? -/
def isNa : Endian → Bool
  | .na => true
  | _ => false

mutual

/-- Grammar-validity of a descriptor (§4.1): supported byte widths, the
endianness-marker discipline (`|` exactly on single-byte tokens), complex
component widths 4 or 8, and well-formed field names. -/
def validD : DType → Bool
  | .prim k w e =>
    widthOk w &&
    (match k with
     | .boolean => w = 1
     | _ => true) &&
    (if w = 1 then isNa e else multiByteEnd e)
  | .cplx cw e => (cw = 4 || cw = 8) && multiByteEnd e
  | .text .singleByte _ e => isNa e
  | .text .wideChar _ e => multiByteEnd e
  | .structured fs => validFields fs
termination_by structural d => d

/-- Validity of every field: nonempty well-formed name, valid field type. -/
def validFields : Fields → Bool
  | .nil => true
  | .cons nm ty _ rest =>
    (match nm with
     | [] => false
     | _ :: _ => true) && nm.all nameByteOk && validD ty && validFields rest
termination_by structural fs => fs

end

/-! ### Descriptor parsing

Modelled from the spec: §4.1 — recursive descent over the token stream,
failing on an unrecognized kind letter, unsupported byte width, or malformed
field tuple.  The fuel argument only bounds recursion depth; the top-level
entry point supplies more fuel than any input can consume. -/

/-- Decode an endianness marker byte. -/
def endOfByte : Nat → Option Endian
  | 60 => some .little
  | 62 => some .big
  | 61 => some .native
  | 124 => some .na
  | _ => none

/-- Parse a scalar token (after its opening quote), consuming the closing
quote: endianness marker, kind letter, decimal width. -/
def parseScalarTok (s : Bytes) : Option (DType × Bytes) :=
  match s with
  | e :: k :: rest =>
    match endOfByte e with
    | none => none
    | some en =>
      match parseNat rest with
      | none => none
      | some (n, r1) =>
        match r1 with
        | 39 :: r2 =>
          if k = 105 then if widthOk n then some (.prim .int n en, r2) else none
          else if k = 117 then if widthOk n then some (.prim .uint n en, r2) else none
          else if k = 102 then if widthOk n then some (.prim .float n en, r2) else none
          else if k = 98 then if n = 1 then some (.prim .boolean 1 en, r2) else none
          else if k = 99 then
            if n = 8 then some (.cplx 4 en, r2)
            else if n = 16 then some (.cplx 8 en, r2) else none
          else if k = 83 then some (.text .singleByte n en, r2)
          else if k = 85 then some (.text .wideChar n en, r2)
          else none
        | _ => none
  | _ => none

/-- Parse the remaining items of a multi-item tuple, consuming the closing
parenthesis. -/
def parseTupleMulti : Nat → Bytes → Option (List Nat × Bytes)
  | 0, _ => none
  | fuel + 1, s =>
    match parseNat s with
    | none => none
    | some (n, r) =>
      match r with
      | 41 :: r2 => some ([n], r2)
      | 44 :: 32 :: r2 =>
        match parseTupleMulti fuel r2 with
        | some (ns, r3) => some (n :: ns, r3)
        | none => none
      | _ => none

/-- Parse a canonical tuple literal: `()`, `(3,)` or `(2, 3)`. -/
def parseTuple (s : Bytes) : Option (List Nat × Bytes) :=
  match s with
  | 40 :: 41 :: r => some ([], r)
  | 40 :: rest =>
    match parseNat rest with
    | none => none
    | some (n, r) =>
      match r with
      | 44 :: 41 :: r2 => some ([n], r2)
      | 44 :: 32 :: r2 =>
        match parseTupleMulti (r2.length + 1) r2 with
        | some (ns, r3) => some (n :: ns, r3)
        | none => none
      | _ => none
  | _ => none

mutual

/-- Parse a descriptor: a quoted scalar token or a bracketed field list. -/
def parseDescr : Nat → Bytes → Option (DType × Bytes)
  | 0, _ => none
  | fuel + 1, s =>
    match s with
    | 39 :: rest => parseScalarTok rest
    | 91 :: 93 :: r => some (.structured .nil, r)
    | 91 :: rest =>
      match parseFieldsNE fuel rest with
      | some (fs, r) => some (.structured fs, r)
      | none => none
    | _ => none

/-- Parse a nonempty field list, consuming the closing bracket. -/
def parseFieldsNE : Nat → Bytes → Option (Fields × Bytes)
  | 0, _ => none
  | fuel + 1, s =>
    match parseField fuel s with
    | none => none
    | some (nm, ty, sub, r) =>
      match r with
      | 93 :: r2 => some (.cons nm ty sub .nil, r2)
      | 44 :: 32 :: r2 =>
        match parseFieldsNE fuel r2 with
        | some (fs, r3) => some (.cons nm ty sub fs, r3)
        | none => none
      | _ => none

/-- Parse one field tuple `('name', descr)` or `('name', descr, (sub,))`. -/
def parseField : Nat → Bytes → Option (Bytes × DType × List Nat × Bytes)
  | 0, _ => none
  | fuel + 1, s =>
    match s with
    | 40 :: 39 :: rest =>
      match rest.takeWhile nameByteOk with
      | [] => none
      | c :: cs =>
        match rest.dropWhile nameByteOk with
        | 39 :: 44 :: 32 :: r2 =>
          match parseDescr fuel r2 with
          | none => none
          | some (ty, r3) =>
            match r3 with
            | 41 :: r4 => some (c :: cs, ty, [], r4)
            | 44 :: 32 :: r5 =>
              match parseTuple r5 with
              | some (sub, r6) =>
                match sub with
                | [] => none
                | _ :: _ =>
                  match r6 with
                  | 41 :: r7 => some (c :: cs, ty, sub, r7)
                  | _ => none
              | none => none
            | _ => none
        | _ => none
    | _ => none

end

mutual

/-- Fuel needed by `parseDescr` on a given descriptor. -/
def needD : DType → Nat
  | .prim _ _ _ => 1
  | .cplx _ _ => 1
  | .text _ _ _ => 1
  | .structured fs => needF fs + 1
termination_by structural d => d

/-- Fuel needed by `parseFieldsNE` on a given field list. -/
def needF : Fields → Nat
  | .nil => 1
  | .cons _ ty _ rest => max (needD ty + 1) (needF rest) + 1
termination_by structural fs => fs

end

/-! ### Tuple round trip -/

theorem natChars_cons (n : Nat) : ∃ d ds, natChars n = d :: ds ∧ 48 ≤ d ∧ d ≤ 57 := by
  cases h : natChars n with
  | nil => exact absurd h (natChars_ne_nil n)
  | cons d ds =>
    have hd : isDigitB d = true := natChars_digits n d (by rw [h]; simp)
    simp only [isDigitB, Bool.and_eq_true, decide_eq_true_eq] at hd
    exact ⟨d, ds, rfl, hd.1, hd.2⟩

theorem serItemsMulti_length (ns : List Nat) : ns.length ≤ (serItemsMulti ns).length := by
  induction ns with
  | nil => simp [serItemsMulti]
  | cons n rest ih =>
    have hn1 : 0 < (natChars n).length := List.length_pos.mpr (natChars_ne_nil n)
    cases rest with
    | nil => simp [serItemsMulti]
    | cons m r2 =>
      simp only [serItemsMulti, List.length_append, List.length_cons]
      simp only [List.length_cons] at ih
      omega

theorem parseTupleMulti_complete :
    ∀ (fuel : Nat) (ns : List Nat), ns ≠ [] → ns.length ≤ fuel → ∀ (r : Bytes),
    parseTupleMulti fuel (serItemsMulti ns ++ r) = some (ns, r) := by
  intro fuel
  induction fuel with
  | zero =>
    intro ns hne hlen r
    cases ns with
    | nil => exact absurd rfl hne
    | cons n rest => simp at hlen
  | succ fuel ih =>
    intro ns hne hlen r
    cases ns with
    | nil => exact absurd rfl hne
    | cons n rest =>
      rw [parseTupleMulti]
      cases rest with
      | nil =>
        simp only [serItemsMulti, List.append_assoc, List.singleton_append]
        rw [parseNat_complete n _ (by rfl)]
      | cons m r2 =>
        simp only [serItemsMulti, List.append_assoc, List.cons_append, List.nil_append]
        rw [parseNat_complete n _ (by rfl)]
        dsimp only
        rw [ih (m :: r2) (by simp) (by simp only [List.length_cons] at hlen ⊢; omega) r]

theorem parseTupleMulti_sound (fuel : Nat) :
    ∀ (s : Bytes) (ns : List Nat) (r : Bytes),
    parseTupleMulti fuel s = some (ns, r) → ns ≠ [] ∧ s = serItemsMulti ns ++ r := by
  induction fuel with
  | zero => intro s ns r h; simp [parseTupleMulti] at h
  | succ fuel ih =>
    intro s ns r h
    rw [parseTupleMulti] at h
    cases hn : parseNat s with
    | none => rw [hn] at h; simp at h
    | some nv =>
      obtain ⟨n, r1⟩ := nv
      rw [hn] at h
      obtain ⟨hs, hr1⟩ := parseNat_sound hn
      dsimp only at h
      split at h
      · -- r1 = 41 :: r2
        rename_i r2
        simp only [Option.some.injEq, Prod.mk.injEq] at h
        obtain ⟨rfl, rfl⟩ := h
        refine ⟨by simp, ?_⟩
        rw [hs]
        simp [serItemsMulti]
      · -- r1 = 44 :: 32 :: r2
        rename_i r2
        cases hrec : parseTupleMulti fuel r2 with
        | none => rw [hrec] at h; simp at h
        | some p =>
          obtain ⟨ns2, r3⟩ := p
          rw [hrec] at h
          simp only [Option.some.injEq, Prod.mk.injEq] at h
          obtain ⟨rfl, rfl⟩ := h
          obtain ⟨hne2, hs2⟩ := ih r2 ns2 r3 hrec
          refine ⟨by simp, ?_⟩
          rw [hs, hs2]
          cases ns2 with
          | nil => exact absurd rfl hne2
          | cons m rest2 => simp [serItemsMulti]
      · exact absurd h (by simp)

theorem parseTuple_complete (l : List Nat) (r : Bytes) :
    parseTuple (serTuple l ++ r) = some (l, r) := by
  cases l with
  | nil => rfl
  | cons n rest =>
    obtain ⟨d, ds, hds, hd1, hd2⟩ := natChars_cons n
    cases rest with
    | nil =>
      show parseTuple ((40 :: natChars n ++ [44, 41]) ++ r) = _
      rw [parseTuple.eq_def]
      simp only [List.cons_append, List.append_assoc, List.nil_append]
      rw [hds]
      split
      · rename_i r0 heq
        simp only [List.cons.injEq] at heq
        obtain ⟨-, h41, -⟩ := heq
        omega
      · rename_i rest0 heq
        simp only [List.cons.injEq] at heq
        rw [← heq.2, ← hds]
        rw [parseNat_complete n _ (by rfl)]
      · rename_i hf1 hf2
        exact (hf2 _ rfl).elim
    | cons m r2 =>
      show parseTuple ((40 :: natChars n ++ [44, 32] ++ serItemsMulti (m :: r2)) ++ r) = _
      rw [parseTuple.eq_def]
      simp only [List.cons_append, List.append_assoc, List.nil_append]
      rw [hds]
      split
      · rename_i r0 heq
        simp only [List.cons.injEq] at heq
        obtain ⟨-, h41, -⟩ := heq
        omega
      · rename_i rest0 heq
        simp only [List.cons.injEq] at heq
        rw [← heq.2, ← hds]
        rw [parseNat_complete n _ (by rfl)]
        dsimp only
        have hlen : (m :: r2).length ≤ (serItemsMulti (m :: r2) ++ r).length + 1 := by
          have := serItemsMulti_length (m :: r2)
          simp only [List.length_append]
          omega
        rw [parseTupleMulti_complete _ (m :: r2) (by simp) hlen r]
      · rename_i hf1 hf2
        exact (hf2 _ rfl).elim

theorem parseTuple_sound {s : Bytes} {l : List Nat} {r : Bytes}
    (h : parseTuple s = some (l, r)) : s = serTuple l ++ r := by
  rw [parseTuple.eq_def] at h
  split at h
  · -- s = 40 :: 41 :: r0
    rename_i r0
    simp only [Option.some.injEq, Prod.mk.injEq] at h
    obtain ⟨rfl, rfl⟩ := h
    rfl
  · -- s = 40 :: rest
    rename_i rest hf
    cases hn : parseNat rest with
    | none => rw [hn] at h; simp at h
    | some nv =>
      obtain ⟨n, r1⟩ := nv
      rw [hn] at h
      obtain ⟨hrest, hnd⟩ := parseNat_sound hn
      dsimp only at h
      split at h
      · -- r1 = 44 :: 41 :: r2
        rename_i r2
        simp only [Option.some.injEq, Prod.mk.injEq] at h
        obtain ⟨rfl, rfl⟩ := h
        rw [hrest]
        simp [serTuple]
      · -- r1 = 44 :: 32 :: r2
        rename_i r2
        cases hm : parseTupleMulti (r2.length + 1) r2 with
        | none => rw [hm] at h; simp at h
        | some p =>
          obtain ⟨ns, r3⟩ := p
          rw [hm] at h
          simp only [Option.some.injEq, Prod.mk.injEq] at h
          obtain ⟨rfl, rfl⟩ := h
          obtain ⟨hne, hs2⟩ := parseTupleMulti_sound _ _ _ _ hm
          rw [hrest, hs2]
          cases ns with
          | nil => exact absurd rfl hne
          | cons m rest2 => simp [serTuple]
      · exact absurd h (by simp)
  · exact absurd h (by simp)

/-! ### Scalar-token round trip -/

theorem endOfByte_endChar (e : Endian) : endOfByte (endChar e) = some e := by
  cases e <;> rfl

theorem endChar_of_endOfByte {b : Nat} {e : Endian} (h : endOfByte b = some e) :
    b = endChar e := by
  unfold endOfByte at h
  split at h
  all_goals first
    | (injection h with h2; subst h2; rfl)
    | exact absurd h (by simp)

theorem parseScalarTok_prim (k : PrimKind) (w : Nat) (e : Endian) (r : Bytes)
    (hw : widthOk w = true) (hb : k = PrimKind.boolean → w = 1) :
    parseScalarTok (endChar e :: kindChar k :: (natChars w ++ 39 :: r)) =
      some (.prim k w e, r) := by
  unfold parseScalarTok
  dsimp only
  rw [endOfByte_endChar, parseNat_complete w _ (by rfl)]
  cases k with
  | int => simp [kindChar, hw]
  | uint => simp [kindChar, hw]
  | float => simp [kindChar, hw]
  | boolean =>
    have hw1 : w = 1 := hb rfl
    subst hw1
    simp [kindChar]

theorem parseScalarTok_cplx (cw : Nat) (e : Endian) (r : Bytes)
    (hcw : cw = 4 ∨ cw = 8) :
    parseScalarTok (endChar e :: 99 :: (natChars (2 * cw) ++ 39 :: r)) =
      some (.cplx cw e, r) := by
  unfold parseScalarTok
  dsimp only
  rw [endOfByte_endChar, parseNat_complete (2 * cw) _ (by rfl)]
  rcases hcw with rfl | rfl <;> simp

theorem parseScalarTok_text (enc : TextEnc) (n : Nat) (e : Endian) (r : Bytes) :
    parseScalarTok
        (endChar e :: (match enc with | .singleByte => 83 | .wideChar => 85) ::
          (natChars n ++ 39 :: r)) =
      some (.text enc n e, r) := by
  unfold parseScalarTok
  dsimp only
  rw [endOfByte_endChar, parseNat_complete n _ (by rfl)]
  cases enc <;> simp

theorem parseScalarTok_sound {s : Bytes} {d : DType} {r : Bytes}
    (h : parseScalarTok s = some (d, r)) : 39 :: s = serDescr d ++ r := by
  unfold parseScalarTok at h
  split at h
  · rename_i e0 k0 rest
    cases hEn : endOfByte e0 with
    | none => rw [hEn] at h; simp at h
    | some en =>
      rw [hEn] at h
      have he0 : e0 = endChar en := endChar_of_endOfByte hEn
      cases hn : parseNat rest with
      | none => rw [hn] at h; simp at h
      | some nv =>
        obtain ⟨n, r1⟩ := nv
        rw [hn] at h
        obtain ⟨hrest, hnd⟩ := parseNat_sound hn
        dsimp only at h
        split at h
        · -- r1 = 39 :: r2
          rename_i r2
          subst he0 hrest
          by_cases h105 : k0 = 105
          · rw [if_pos h105] at h
            subst h105
            split at h
            · simp only [Option.some.injEq, Prod.mk.injEq] at h
              obtain ⟨rfl, rfl⟩ := h
              simp [serDescr, kindChar]
            · exact absurd h (by simp)
          · rw [if_neg h105] at h
            by_cases h117 : k0 = 117
            · rw [if_pos h117] at h
              subst h117
              split at h
              · simp only [Option.some.injEq, Prod.mk.injEq] at h
                obtain ⟨rfl, rfl⟩ := h
                simp [serDescr, kindChar]
              · exact absurd h (by simp)
            · rw [if_neg h117] at h
              by_cases h102 : k0 = 102
              · rw [if_pos h102] at h
                subst h102
                split at h
                · simp only [Option.some.injEq, Prod.mk.injEq] at h
                  obtain ⟨rfl, rfl⟩ := h
                  simp [serDescr, kindChar]
                · exact absurd h (by simp)
              · rw [if_neg h102] at h
                by_cases h98 : k0 = 98
                · rw [if_pos h98] at h
                  subst h98
                  split at h
                  · rename_i hn1
                    subst hn1
                    simp only [Option.some.injEq, Prod.mk.injEq] at h
                    obtain ⟨rfl, rfl⟩ := h
                    simp [serDescr, kindChar]
                  · exact absurd h (by simp)
                · rw [if_neg h98] at h
                  by_cases h99 : k0 = 99
                  · rw [if_pos h99] at h
                    subst h99
                    split at h
                    · rename_i hn8
                      subst hn8
                      simp only [Option.some.injEq, Prod.mk.injEq] at h
                      obtain ⟨rfl, rfl⟩ := h
                      simp [serDescr]
                    · split at h
                      · rename_i hn16
                        subst hn16
                        simp only [Option.some.injEq, Prod.mk.injEq] at h
                        obtain ⟨rfl, rfl⟩ := h
                        simp [serDescr]
                      · exact absurd h (by simp)
                  · rw [if_neg h99] at h
                    by_cases h83 : k0 = 83
                    · rw [if_pos h83] at h
                      subst h83
                      simp only [Option.some.injEq, Prod.mk.injEq] at h
                      obtain ⟨rfl, rfl⟩ := h
                      simp [serDescr]
                    · rw [if_neg h83] at h
                      by_cases h85 : k0 = 85
                      · rw [if_pos h85] at h
                        subst h85
                        simp only [Option.some.injEq, Prod.mk.injEq] at h
                        obtain ⟨rfl, rfl⟩ := h
                        simp [serDescr]
                      · rw [if_neg h85] at h
                        exact absurd h (by simp)
        · exact absurd h (by simp)
  · exact absurd h (by simp)

/-! ### Descriptor round trip -/

theorem needD_pos (d : DType) : 1 ≤ needD d := by
  cases d <;> simp [needD]

theorem needF_pos (fs : Fields) : 1 ≤ needF fs := by
  cases fs <;> simp [needF]

theorem validD_prim {k : PrimKind} {w : Nat} {e : Endian}
    (h : validD (.prim k w e) = true) :
    widthOk w = true ∧ (k = PrimKind.boolean → w = 1) := by
  simp only [validD, Bool.and_eq_true] at h
  refine ⟨h.1.1, ?_⟩
  intro hk
  subst hk
  simpa using h.1.2

theorem validD_cplx {cw : Nat} {e : Endian} (h : validD (.cplx cw e) = true) :
    cw = 4 ∨ cw = 8 := by
  simp only [validD, Bool.and_eq_true, Bool.or_eq_true, decide_eq_true_eq] at h
  exact h.1

theorem validFields_cons {nm : Bytes} {ty : DType} {sub : List Nat} {rest : Fields}
    (h : validFields (.cons nm ty sub rest) = true) :
    nm ≠ [] ∧ nm.all nameByteOk = true ∧ validD ty = true ∧ validFields rest = true := by
  simp only [validFields, Bool.and_eq_true] at h
  obtain ⟨⟨⟨h1, h2⟩, h3⟩, h4⟩ := h
  refine ⟨?_, h2, h3, h4⟩
  cases nm with
  | nil => simp at h1
  | cons c cs => simp

theorem descr_complete (fuel : Nat) :
    (∀ (d : DType) (r : Bytes), validD d = true → needD d ≤ fuel →
      parseDescr fuel (serDescr d ++ r) = some (d, r)) ∧
    (∀ (fs : Fields) (r : Bytes), fs ≠ .nil → validFields fs = true → needF fs ≤ fuel →
      parseFieldsNE fuel (serFields fs ++ 93 :: r) = some (fs, r)) ∧
    (∀ (nm : Bytes) (ty : DType) (sub : List Nat) (r : Bytes),
      nm ≠ [] → nm.all nameByteOk = true → validD ty = true → needD ty + 1 ≤ fuel →
      parseField fuel (serField nm ty sub ++ r) = some (nm, ty, sub, r)) := by
  induction fuel with
  | zero =>
    refine ⟨?_, ?_, ?_⟩
    · intro d r _ hn
      have := needD_pos d
      omega
    · intro fs r _ _ hn
      have := needF_pos fs
      omega
    · intro nm ty sub r _ _ _ hn
      omega
  | succ fuel ih =>
    obtain ⟨ihD, ihF, ihFld⟩ := ih
    have partFld : ∀ (nm : Bytes) (ty : DType) (sub : List Nat) (r : Bytes),
        nm ≠ [] → nm.all nameByteOk = true → validD ty = true → needD ty + 1 ≤ fuel + 1 →
        parseField (fuel + 1) (serField nm ty sub ++ r) = some (nm, ty, sub, r) := by
      intro nm ty sub r hne hall hvt hn
      have hx : ∀ x ∈ nm, nameByteOk x = true :=
        fun x hx => (List.all_eq_true.mp hall) x hx
      cases sub with
      | nil =>
        simp only [serField, List.cons_append, List.append_assoc, List.nil_append,
          List.singleton_append]
        rw [parseField.eq_def]
        dsimp only
        have hspan := takeWhile_append_span nameByteOk nm
          (39 :: 44 :: 32 :: (serDescr ty ++ 41 :: r)) hx (by rfl)
        rw [hspan.1, hspan.2]
        cases nm with
        | nil => exact absurd rfl hne
        | cons c cs =>
          dsimp only
          rw [ihD ty _ hvt (by omega)]
      | cons s0 ss =>
        simp only [serField, List.cons_append, List.append_assoc, List.nil_append,
          List.singleton_append]
        rw [parseField.eq_def]
        dsimp only
        have hspan := takeWhile_append_span nameByteOk nm
          (39 :: 44 :: 32 :: (serDescr ty ++ 44 :: 32 :: (serTuple (s0 :: ss) ++ 41 :: r)))
          hx (by rfl)
        rw [hspan.1, hspan.2]
        cases nm with
        | nil => exact absurd rfl hne
        | cons c cs =>
          dsimp only
          rw [ihD ty _ hvt (by omega)]
          dsimp only
          rw [parseTuple_complete (s0 :: ss) (41 :: r)]
    refine ⟨?_, ?_, partFld⟩
    · intro d r hv hn
      cases d with
      | prim k w e =>
        obtain ⟨hw, hb⟩ := validD_prim hv
        simp only [serDescr, List.cons_append, List.append_assoc, List.singleton_append]
        rw [parseDescr.eq_def]
        dsimp only
        exact parseScalarTok_prim k w e r hw hb
      | cplx cw e =>
        have hcw := validD_cplx hv
        simp only [serDescr, List.cons_append, List.append_assoc, List.singleton_append]
        rw [parseDescr.eq_def]
        dsimp only
        exact parseScalarTok_cplx cw e r hcw
      | text enc n e =>
        cases enc with
        | singleByte =>
          simp only [serDescr, List.cons_append, List.append_assoc, List.singleton_append]
          rw [parseDescr.eq_def]
          dsimp only
          exact parseScalarTok_text .singleByte n e r
        | wideChar =>
          simp only [serDescr, List.cons_append, List.append_assoc, List.singleton_append]
          rw [parseDescr.eq_def]
          dsimp only
          exact parseScalarTok_text .wideChar n e r
      | structured fs =>
        cases fs with
        | nil =>
          simp only [serDescr, serFields, List.cons_append, List.nil_append,
            List.append_assoc, List.singleton_append]
          rw [parseDescr.eq_def]
        | cons nm ty sub rest =>
          have hvf : validFields (.cons nm ty sub rest) = true := by
            simpa [validD] using hv
          obtain ⟨t, ht0⟩ : ∃ t, serFields (.cons nm ty sub rest) = 40 :: t := ⟨_, rfl⟩
          have ht : serFields (.cons nm ty sub rest) ++ 93 :: r = 40 :: (t ++ 93 :: r) := by
            rw [ht0]
            rfl
          simp only [serDescr, List.cons_append, List.append_assoc, List.singleton_append,
            List.nil_append]
          rw [ht, parseDescr.eq_def]
          dsimp only
          rw [← ht]
          have hn2 : needF (.cons nm ty sub rest) ≤ fuel := by
            simp only [needD] at hn
            omega
          rw [ihF (.cons nm ty sub rest) r (by simp) hvf hn2]
    · intro fs r hne hvf hn
      obtain ⟨nm, ty, sub, rest, rfl⟩ :
          ∃ nm ty sub rest, fs = .cons nm ty sub rest := by
        cases fs with
        | nil => exact absurd rfl hne
        | cons nm ty sub rest => exact ⟨nm, ty, sub, rest, rfl⟩
      obtain ⟨hnm, hall, hvt, hvrest⟩ := validFields_cons hvf
      have hnF : needF (.cons nm ty sub rest) ≤ fuel + 1 := hn
      simp only [needF] at hnF
      rw [parseFieldsNE.eq_def]
      dsimp only
      rw [serFields_cons]
      cases rest with
      | nil =>
        dsimp only
        simp only [serFields, List.append_assoc, List.nil_append, List.append_nil]
        rw [ihFld nm ty sub (93 :: r) hnm hall hvt (by omega)]
      | cons nm2 ty2 sub2 rest2 =>
        dsimp only
        simp only [List.append_assoc, List.cons_append, List.nil_append]
        rw [ihFld nm ty sub _ hnm hall hvt (by omega)]
        dsimp only
        rw [ihF (.cons nm2 ty2 sub2 rest2) r (by simp) hvrest (by omega)]

theorem descr_sound (fuel : Nat) :
    (∀ (s : Bytes) (d : DType) (r : Bytes),
      parseDescr fuel s = some (d, r) → s = serDescr d ++ r) ∧
    (∀ (s : Bytes) (fs : Fields) (r : Bytes),
      parseFieldsNE fuel s = some (fs, r) →
      fs ≠ .nil ∧ s = serFields fs ++ 93 :: r) ∧
    (∀ (s nm : Bytes) (ty : DType) (sub : List Nat) (r : Bytes),
      parseField fuel s = some (nm, ty, sub, r) → s = serField nm ty sub ++ r) := by
  induction fuel with
  | zero =>
    refine ⟨?_, ?_, ?_⟩
    · intro s d r h; simp [parseDescr] at h
    · intro s fs r h; simp [parseFieldsNE] at h
    · intro s nm ty sub r h; simp [parseField] at h
  | succ fuel ih =>
    obtain ⟨ihD, ihF, ihFld⟩ := ih
    refine ⟨?_, ?_, ?_⟩
    · intro s d r h
      rw [parseDescr.eq_def] at h
      dsimp only at h
      split at h
      · -- s = 39 :: rest
        exact parseScalarTok_sound h
      · -- s = 91 :: 93 :: r0
        simp only [Option.some.injEq, Prod.mk.injEq] at h
        obtain ⟨rfl, rfl⟩ := h
        simp [serDescr, serFields]
      · -- s = 91 :: rest
        rename_i rest hg2
        cases hfs : parseFieldsNE fuel rest with
        | none => rw [hfs] at h; simp at h
        | some p =>
          obtain ⟨fs, r1⟩ := p
          rw [hfs] at h
          simp only [Option.some.injEq, Prod.mk.injEq] at h
          obtain ⟨rfl, rfl⟩ := h
          obtain ⟨-, hrest⟩ := ihF rest fs r1 hfs
          rw [hrest]
          simp [serDescr]
      · exact absurd h (by simp)
    · intro s fs r h
      rw [parseFieldsNE.eq_def] at h
      dsimp only at h
      cases hfld : parseField fuel s with
      | none => rw [hfld] at h; simp at h
      | some q =>
        obtain ⟨nm, ty, sub, r1⟩ := q
        rw [hfld] at h
        have hs := ihFld s nm ty sub r1 hfld
        dsimp only at h
        split at h
        · -- r1 = 93 :: r2
          rename_i r2
          simp only [Option.some.injEq, Prod.mk.injEq] at h
          obtain ⟨rfl, rfl⟩ := h
          refine ⟨by simp, ?_⟩
          rw [hs]
          simp [serFields_cons, serFields, serField, List.append_assoc]
        · -- r1 = 44 :: 32 :: r2
          rename_i r2
          cases hrec : parseFieldsNE fuel r2 with
          | none => rw [hrec] at h; simp at h
          | some p2 =>
            obtain ⟨fs2, r3⟩ := p2
            rw [hrec] at h
            simp only [Option.some.injEq, Prod.mk.injEq] at h
            obtain ⟨rfl, rfl⟩ := h
            obtain ⟨hne2, hr2⟩ := ihF r2 fs2 r3 hrec
            refine ⟨by simp, ?_⟩
            rw [hs, hr2]
            cases fs2 with
            | nil => exact absurd rfl hne2
            | cons nm2 ty2 sub2 rest2 =>
              simp [serFields_cons]
        · exact absurd h (by simp)
    · intro s nm ty sub r h
      rw [parseField.eq_def] at h
      dsimp only at h
      split at h
      · -- s = 40 :: 39 :: rest
        rename_i rest
        split at h
        · exact absurd h (by simp)
        · -- takeWhile = c :: cs
          rename_i c cs htw
          split at h
          · -- dropWhile = 39 :: 44 :: 32 :: r2
            rename_i r2 hdw
            cases hdescr : parseDescr fuel r2 with
            | none => rw [hdescr] at h; simp at h
            | some p =>
              obtain ⟨ty1, r3⟩ := p
              rw [hdescr] at h
              have hr2 := ihD r2 ty1 r3 hdescr
              dsimp only at h
              split at h
              · -- r3 = 41 :: r4
                rename_i r4
                simp only [Option.some.injEq, Prod.mk.injEq] at h
                obtain ⟨rfl, rfl, rfl, rfl⟩ := h
                have hrest : rest = (c :: cs) ++ 39 :: 44 :: 32 :: r2 := by
                  rw [← htw, ← hdw, List.takeWhile_append_dropWhile]
                rw [hrest, hr2]
                simp [serField]
              · -- r3 = 44 :: 32 :: r5
                rename_i r5
                cases htup : parseTuple r5 with
                | none => rw [htup] at h; simp at h
                | some p2 =>
                  obtain ⟨sub1, r6⟩ := p2
                  rw [htup] at h
                  have hr5 := parseTuple_sound htup
                  dsimp only at h
                  split at h
                  · exact absurd h (by simp)
                  · -- sub1 = s0 :: ss
                    rename_i s0 ss
                    split at h
                    · -- r6 = 41 :: r7
                      rename_i r7
                      simp only [Option.some.injEq, Prod.mk.injEq] at h
                      obtain ⟨rfl, rfl, rfl, rfl⟩ := h
                      have hrest : rest = (c :: cs) ++ 39 :: 44 :: 32 :: r2 := by
                        rw [← htw, ← hdw, List.takeWhile_append_dropWhile]
                      rw [hrest, hr2, hr5]
                      simp [serField]
                    · exact absurd h (by simp)
              · exact absurd h (by simp)
          · exact absurd h (by simp)
      · exact absurd h (by simp)

mutual

/-- The recursion depth a descriptor needs is bounded by its rendered length. -/
theorem needD_le_len (d : DType) : needD d ≤ (serDescr d).length := by
  cases d with
  | prim k w e => simp [needD, serDescr]
  | cplx cw e => simp [needD, serDescr]
  | text enc n e => cases enc <;> simp [needD, serDescr]
  | structured fs =>
    have := needF_le_len fs
    simp only [needD, serDescr, List.length_cons, List.length_append]
    simp only [List.length_cons, List.length_nil]
    omega
termination_by structural d

/-- Fuel bound for a field list in terms of its rendered length. -/
theorem needF_le_len (fs : Fields) : needF fs ≤ (serFields fs).length + 1 := by
  cases fs with
  | nil => simp [needF, serFields]
  | cons nm ty sub rest =>
    have h1 := needD_le_len ty
    have h2 := needF_le_len rest
    simp only [needF, serFields_cons, serField, List.length_append, List.length_cons]
    have h3 : 0 ≤ nm.length := Nat.zero_le _
    omega
termination_by structural fs

end

/-- Top-level descriptor parse: supply more fuel than the input length. -/
def parseDescrTop (s : Bytes) : Option (DType × Bytes) := parseDescr (s.length + 1) s

theorem parseDescrTop_complete (d : DType) (r : Bytes) (hv : validD d = true) :
    parseDescrTop (serDescr d ++ r) = some (d, r) := by
  unfold parseDescrTop
  refine (descr_complete _).1 d r hv ?_
  have := needD_le_len d
  simp only [List.length_append]
  omega

theorem parseDescrTop_sound {s : Bytes} {d : DType} {r : Bytes}
    (h : parseDescrTop s = some (d, r)) : s = serDescr d ++ r :=
  (descr_sound (s.length + 1)).1 s d r h

/-! ## HeaderCodec: the header text

Modelled from the spec: §4.2 item 4 — an ASCII, key-ordered structured-text
literal with three fields: the descriptor, the element-order flag, and the
shape (always rendered as a tuple). -/

/-- Modelled from the spec: §3's ArrayHeader without `formatVersion` — §4.2
makes the format version a property of the wire encoding, chosen
automatically by the encoder, so it is not caller-supplied state. -/
structure ArrayHeader where
  descr : DType
  fortranOrder : Bool
  shape : List Nat

/-- A header is valid when its descriptor is grammar-valid. -/
def validHeader (h : ArrayHeader) : Bool := validD h.descr

/-- Render the canonical header text
`{'descr': …, 'fortran_order': …, 'shape': (…), }`. -/
def headerText (h : ArrayHeader) : Bytes :=
  strBytes "\x7b'descr': " ++ serDescr h.descr ++
    strBytes ", 'fortran_order': " ++
    (if h.fortranOrder then strBytes "True" else strBytes "False") ++
    strBytes ", 'shape': " ++ serTuple h.shape ++ strBytes ", \x7d"

/-- Expect a literal byte sequence as a prefix; return the rest. -/
def expectLit (lit s : Bytes) : Option Bytes :=
  if lit.isPrefixOf s then some (s.drop lit.length) else none

theorem expectLit_complete (lit r : Bytes) : expectLit lit (lit ++ r) = some r := by
  unfold expectLit
  rw [if_pos]
  · rw [List.drop_left]
  · exact List.isPrefixOf_iff_prefix.mpr (List.prefix_append lit r)

theorem expectLit_self (lit : Bytes) : expectLit lit lit = some [] := by
  simpa using expectLit_complete lit []

theorem expectLit_sound {lit s r : Bytes} (h : expectLit lit s = some r) :
    s = lit ++ r := by
  unfold expectLit at h
  split at h
  · rename_i hp
    obtain ⟨t, rfl⟩ := List.isPrefixOf_iff_prefix.mp hp
    rw [List.drop_left] at h
    simp only [Option.some.injEq] at h
    rw [h]
  · exact absurd h (by simp)

/-- Parse the element-order flag literal. -/
def parseBool (s : Bytes) : Option (Bool × Bytes) :=
  match expectLit (strBytes "True") s with
  | some r => some (true, r)
  | none =>
    match expectLit (strBytes "False") s with
    | some r => some (false, r)
    | none => none

theorem parseBool_complete (b : Bool) (r : Bytes) :
    parseBool ((if b then strBytes "True" else strBytes "False") ++ r) = some (b, r) := by
  cases b with
  | true =>
    unfold parseBool
    rw [if_pos rfl, expectLit_complete]
  | false =>
    unfold parseBool
    rw [if_neg (by simp)]
    have hT : expectLit (strBytes "True") (strBytes "False" ++ r) = none := rfl
    rw [hT, expectLit_complete]

theorem parseBool_sound {s : Bytes} {b : Bool} {r : Bytes}
    (h : parseBool s = some (b, r)) :
    s = (if b then strBytes "True" else strBytes "False") ++ r := by
  unfold parseBool at h
  cases hT : expectLit (strBytes "True") s with
  | some t =>
    rw [hT] at h
    simp only [Option.some.injEq, Prod.mk.injEq] at h
    obtain ⟨rfl, rfl⟩ := h
    simpa using expectLit_sound hT
  | none =>
    rw [hT] at h
    cases hF : expectLit (strBytes "False") s with
    | some t =>
      rw [hF] at h
      simp only [Option.some.injEq, Prod.mk.injEq] at h
      obtain ⟨rfl, rfl⟩ := h
      simpa using expectLit_sound hF
    | none =>
      rw [hF] at h
      simp at h

/-- Parse the canonical header text back into an `ArrayHeader`; all of the
input must be consumed. -/
def parseHeaderText (s : Bytes) : Option ArrayHeader :=
  match expectLit (strBytes "\x7b'descr': ") s with
  | none => none
  | some s1 =>
    match parseDescrTop s1 with
    | none => none
    | some (d, s2) =>
      match expectLit (strBytes ", 'fortran_order': ") s2 with
      | none => none
      | some s3 =>
        match parseBool s3 with
        | none => none
        | some (b, s4) =>
          match expectLit (strBytes ", 'shape': ") s4 with
          | none => none
          | some s5 =>
            match parseTuple s5 with
            | none => none
            | some (shape, s6) =>
              match expectLit (strBytes ", \x7d") s6 with
              | none => none
              | some s7 =>
                match s7 with
                | [] => some ⟨d, b, shape⟩
                | _ :: _ => none

theorem parseHeaderText_complete (h : ArrayHeader) (hv : validHeader h = true) :
    parseHeaderText (headerText h) = some h := by
  obtain ⟨d, b, shape⟩ := h
  unfold parseHeaderText headerText
  simp only [List.append_assoc]
  have hfuel : parseDescrTop (serDescr d ++
      (strBytes ", 'fortran_order': " ++
        ((if b then strBytes "True" else strBytes "False") ++
          (strBytes ", 'shape': " ++ (serTuple shape ++ strBytes ", \x7d"))))) =
      some (d, strBytes ", 'fortran_order': " ++
        ((if b then strBytes "True" else strBytes "False") ++
          (strBytes ", 'shape': " ++ (serTuple shape ++ strBytes ", \x7d")))) :=
    parseDescrTop_complete d _ hv
  rw [expectLit_complete]
  dsimp only
  rw [hfuel]
  dsimp only
  rw [expectLit_complete]
  dsimp only
  rw [parseBool_complete]
  dsimp only
  rw [expectLit_complete]
  dsimp only
  rw [parseTuple_complete]
  dsimp only
  rw [expectLit_self]

theorem parseHeaderText_sound {s : Bytes} {h : ArrayHeader}
    (hp : parseHeaderText s = some h) : s = headerText h := by
  unfold parseHeaderText at hp
  cases h1 : expectLit (strBytes "\x7b'descr': ") s with
  | none => rw [h1] at hp; simp at hp
  | some s1 =>
    rw [h1] at hp
    dsimp only at hp
    cases h2 : parseDescrTop s1 with
    | none => rw [h2] at hp; simp at hp
    | some p1 =>
      obtain ⟨d, s2⟩ := p1
      rw [h2] at hp
      dsimp only at hp
      cases h3 : expectLit (strBytes ", 'fortran_order': ") s2 with
      | none => rw [h3] at hp; simp at hp
      | some s3 =>
        rw [h3] at hp
        dsimp only at hp
        cases h4 : parseBool s3 with
        | none => rw [h4] at hp; simp at hp
        | some p2 =>
          obtain ⟨b, s4⟩ := p2
          rw [h4] at hp
          dsimp only at hp
          cases h5 : expectLit (strBytes ", 'shape': ") s4 with
          | none => rw [h5] at hp; simp at hp
          | some s5 =>
            rw [h5] at hp
            dsimp only at hp
            cases h6 : parseTuple s5 with
            | none => rw [h6] at hp; simp at hp
            | some p3 =>
              obtain ⟨shape, s6⟩ := p3
              rw [h6] at hp
              dsimp only at hp
              cases h7 : expectLit (strBytes ", \x7d") s6 with
              | none => rw [h7] at hp; simp at hp
              | some s7 =>
                rw [h7] at hp
                dsimp only at hp
                cases s7 with
                | cons c cs => simp at hp
                | nil =>
                  simp only [Option.some.injEq] at hp
                  subst hp
                  have e1 := expectLit_sound h1
                  have e2 := parseDescrTop_sound h2
                  have e3 := expectLit_sound h3
                  have e4 := parseBool_sound h4
                  have e5 := expectLit_sound h5
                  have e6 := parseTuple_sound h6
                  have e7 := expectLit_sound h7
                  rw [e1, e2, e3, e4, e5, e6, e7]
                  unfold headerText
                  simp [List.append_assoc]

/-! ## HeaderCodec: the byte-level preamble

Modelled from the spec: §4.2 — 6-byte magic, 2-byte version, a 2- or 4-byte
little-endian header-length field, the header text, space padding and a
terminating newline, padded so the total preamble length is a multiple of
64. -/

/-- The error taxonomy of §7. -/
inductive NpyError where
  | badMagic
  | unsupportedVersion
  | malformedDescriptor
  | payloadSizeMismatch
  | truncatedPayload
  | duplicateMemberName
  | malformedMemberName
  | checksumMismatch
  | unsupportedCompressionMethod
deriving DecidableEq

/-- The 6-byte magic sequence `\x93NUMPY`. -/
def magicBytes : Bytes := [147, 78, 85, 77, 80, 89]

/-- Number of space-padding bytes: with a preamble of `pre` bytes before the
header text and a newline after it, pad so the total is a multiple of 64. -/
def padCount (pre len : Nat) : Nat := (64 - (pre + len + 1) % 64) % 64

/-- The value of the header-length field: text, padding and newline. -/
def storedLen (pre len : Nat) : Nat := len + padCount pre len + 1

/-- 2-byte little-endian rendering. -/
def le2 (n : Nat) : Bytes := [n % 256, n / 256 % 256]

/-- 4-byte little-endian rendering. -/
def le4 (n : Nat) : Bytes :=
  [n % 256, n / 256 % 256, n / 65536 % 256, n / 16777216 % 256]

/-- Value of a 2-byte little-endian field. -/
def le2val (b0 b1 : Nat) : Nat := b0 + 256 * b1

/-- Value of a 4-byte little-endian field. -/
def le4val (b0 b1 b2 b3 : Nat) : Nat :=
  b0 + 256 * b1 + 65536 * b2 + 16777216 * b3

theorem le2val_le2 (n : Nat) (hn : n < 65536) :
    le2val (n % 256) (n / 256 % 256) = n := by
  unfold le2val
  omega

theorem le4val_le4 (n : Nat) (hn : n < 4294967296) :
    le4val (n % 256) (n / 256 % 256) (n / 65536 % 256) (n / 16777216 % 256) = n := by
  unfold le4val
  omega

/-- The stored header-text block: text, space padding, newline. -/
def storedBlock (pre : Nat) (t : Bytes) : Bytes :=
  t ++ List.replicate (padCount pre t.length) 32 ++ [10]

theorem storedBlock_length (pre : Nat) (t : Bytes) :
    (storedBlock pre t).length = storedLen pre t.length := by
  simp only [storedBlock, storedLen, List.length_append, List.length_replicate,
    List.length_cons, List.length_nil]

/-- Modelled from the spec: §4.2 encode — magic, version (selected
automatically: `(1,0)` with a 2-byte length field when the padded text fits
in 65535 bytes, `(2,0)` with a 4-byte field otherwise), length field, then
the padded text block. -/
def encodeHeader (h : ArrayHeader) : Bytes :=
  let t := headerText h
  if storedLen 10 t.length ≤ 65535 then
    magicBytes ++ [1, 0] ++ le2 (storedLen 10 t.length) ++ storedBlock 10 t
  else
    magicBytes ++ [2, 0] ++ le4 (storedLen 12 t.length) ++ storedBlock 12 t

/-- Strip leading spaces. -/
def dropSpaces : Bytes → Bytes
  | 32 :: r => dropSpaces r
  | r => r

/-- Undo the padding of a stored header-text block: require the trailing
newline, then strip the space padding before it. -/
def stripStored (b : Bytes) : Option Bytes :=
  match b.reverse with
  | 10 :: r => some (dropSpaces r).reverse
  | _ => none

theorem dropSpaces_replicate (k : Nat) (u : Bytes) :
    dropSpaces (List.replicate k 32 ++ u) = dropSpaces u := by
  induction k with
  | zero => simp
  | succ k ih =>
    rw [List.replicate_succ, List.cons_append, dropSpaces]
    exact ih

theorem dropSpaces_of_head_ne {u : Bytes} (h : u.head? ≠ some 32) :
    dropSpaces u = u := by
  cases u with
  | nil => rfl
  | cons c r =>
    have hc : c ≠ 32 := by
      intro hc
      subst hc
      exact h rfl
    rw [dropSpaces.eq_def]
    split
    · rename_i r2 heq
      injection heq with h1 h2
      exact absurd h1 hc
    · rfl

theorem stripStored_roundtrip (pre : Nat) (t : Bytes) (hlast : t.getLast? ≠ some 32) :
    stripStored (storedBlock pre t) = some t := by
  unfold stripStored storedBlock
  simp only [List.reverse_append, List.reverse_replicate, List.reverse_cons,
    List.reverse_nil, List.nil_append, List.append_assoc, List.cons_append]
  rw [dropSpaces_replicate, dropSpaces_of_head_ne (by rwa [List.head?_reverse]),
    List.reverse_reverse]

theorem headerText_getLast (h : ArrayHeader) :
    (headerText h).getLast? = some 125 := by
  unfold headerText
  simp only [List.append_assoc, List.getLast?_append]
  rfl

/-- Shared tail of header decoding: take `L` stored bytes, strip, parse. -/
def decodeHeaderBody (L : Nat) (rest : Bytes) : Except NpyError (ArrayHeader × Bytes) :=
  if L ≤ rest.length then
    match stripStored (rest.take L) with
    | none => .error .malformedDescriptor
    | some t =>
      match parseHeaderText t with
      | none => .error .malformedDescriptor
      | some h => .ok (h, rest.drop L)
  else .error .truncatedPayload

/-- Modelled from the spec: §4.2 decode — check the magic, read the version
and the matching length field, take exactly that many stored bytes, strip
padding and newline, and parse the header text. -/
def decodeHeader (s : Bytes) : Except NpyError (ArrayHeader × Bytes) :=
  match s with
  | 147 :: 78 :: 85 :: 77 :: 80 :: 89 :: rest =>
    match rest with
    | 1 :: 0 :: b0 :: b1 :: rest2 =>
      decodeHeaderBody (le2val b0 b1) rest2
    | 2 :: 0 :: b0 :: b1 :: b2 :: b3 :: rest2 =>
      decodeHeaderBody (le4val b0 b1 b2 b3) rest2
    | _ => .error .unsupportedVersion
  | _ => .error .badMagic

theorem decodeHeaderBody_complete (pre : Nat) (h : ArrayHeader) (p : Bytes)
    (hv : validHeader h = true) :
    decodeHeaderBody (storedLen pre (headerText h).length)
      (storedBlock pre (headerText h) ++ p) = .ok (h, p) := by
  unfold decodeHeaderBody
  have hlen : (storedBlock pre (headerText h)).length
      = storedLen pre (headerText h).length := storedBlock_length pre (headerText h)
  rw [if_pos (by simp only [List.length_append]; omega)]
  rw [List.take_left' hlen, List.drop_left' hlen]
  rw [stripStored_roundtrip pre (headerText h)
    (by rw [headerText_getLast]; simp)]
  dsimp only
  rw [parseHeaderText_complete h hv]

theorem decodeHeader_complete (h : ArrayHeader) (p : Bytes) (hv : validHeader h = true)
    (hbound : storedLen 12 (headerText h).length < 4294967296) :
    decodeHeader (encodeHeader h ++ p) = .ok (h, p) := by
  unfold encodeHeader
  by_cases hc : storedLen 10 (headerText h).length ≤ 65535
  · rw [if_pos hc]
    show decodeHeader
      ((magicBytes ++ [1, 0] ++ le2 (storedLen 10 (headerText h).length) ++
        storedBlock 10 (headerText h)) ++ p) = _
    simp only [magicBytes, le2, List.cons_append, List.append_assoc, List.nil_append]
    rw [decodeHeader.eq_def]
    dsimp only
    rw [le2val_le2 _ (by omega)]
    exact decodeHeaderBody_complete 10 h p hv
  · rw [if_neg hc]
    show decodeHeader
      ((magicBytes ++ [2, 0] ++ le4 (storedLen 12 (headerText h).length) ++
        storedBlock 12 (headerText h)) ++ p) = _
    simp only [magicBytes, le4, List.cons_append, List.append_assoc, List.nil_append]
    rw [decodeHeader.eq_def]
    dsimp only
    rw [le4val_le4 _ hbound]
    exact decodeHeaderBody_complete 12 h p hv

/-- The preamble always ends on a 64-byte boundary. -/
theorem encodeHeader_length_mod (h : ArrayHeader) :
    (encodeHeader h).length % 64 = 0 := by
  unfold encodeHeader
  dsimp only
  split
  · simp only [List.length_append, storedBlock_length, magicBytes, le2, storedLen,
      padCount, List.length_cons, List.length_nil]
    omega
  · simp only [List.length_append, storedBlock_length, magicBytes, le4, storedLen,
      padCount, List.length_cons, List.length_nil]
    omega

/-! ## ArrayCodec

Modelled from the spec: §4.3 — validate the payload length against §3's size
invariant, then emit the header bytes followed by the raw payload bytes
unmodified. -/

/-- §3's size invariant: payload length must equal
(product of shape, or 1 if empty) × itemSize. -/
def expectedSize (h : ArrayHeader) : Nat := shapeProd h.shape * itemSize h.descr

/-- Modelled from the spec: §4.3 encode.  Fails with `PayloadSizeMismatch`
(before emitting anything) when the payload length violates the invariant. -/
def encodeArray (h : ArrayHeader) (p : Bytes) : Except NpyError Bytes :=
  if p.length = expectedSize h then .ok (encodeHeader h ++ p)
  else .error .payloadSizeMismatch

/-- Modelled from the spec: §4.3 decode — parse the header, compute the
expected payload length, and read exactly that many bytes (bounded read,
failing `TruncatedPayload` when fewer are available). -/
def decodeArray (s : Bytes) : Except NpyError (ArrayHeader × Bytes) :=
  match decodeHeader s with
  | .error e => .error e
  | .ok (h, rest) =>
    if expectedSize h ≤ rest.length then .ok (h, rest.take (expectedSize h))
    else .error .truncatedPayload

theorem decodeArray_encodeArray (h : ArrayHeader) (p : Bytes)
    (hv : validHeader h = true)
    (hsize : p.length = expectedSize h)
    (hbound : storedLen 12 (headerText h).length < 4294967296) :
    encodeArray h p = .ok (encodeHeader h ++ p) ∧
    decodeArray (encodeHeader h ++ p) = .ok (h, p) := by
  refine ⟨by rw [encodeArray, if_pos hsize], ?_⟩
  unfold decodeArray
  rw [decodeHeader_complete h p hv hbound]
  dsimp only
  rw [if_pos (by omega)]
  rw [List.take_of_length_le (by omega)]

/-! ## CRC-32

Modelled from the spec: §4.5 — the container stores a CRC-32 checksum of
each member's uncompressed bytes.  This is the standard reflected CRC-32
(polynomial `0xEDB88320`), implemented bitwise over `Nat` with explicit
`% 2^32` behaviour.  The key fact proved here: changing a single byte of a
message always changes its CRC-32. -/

/-- The reflected CRC-32 polynomial `0xEDB88320`. -/
def crcPoly : Nat := 3988292384

/-- One bit step of the CRC shift register. -/
def crcStep (c : Nat) : Nat := if c % 2 = 1 then (c / 2) ^^^ crcPoly else c / 2

/-- Inverse of `crcStep` on 32-bit states. -/
def crcStepInv (c : Nat) : Nat :=
  if c.testBit 31 then (c ^^^ crcPoly) * 2 + 1 else c * 2

/-- Absorb one byte: XOR it into the register, then shift eight times. -/
def crcUpdate (c b : Nat) : Nat := crcStep^[8] (c ^^^ b)

/-- Run the register over a byte stream. -/
def crcFold (init : Nat) (bs : Bytes) : Nat := bs.foldl crcUpdate init

/-- CRC-32 of a byte stream (initial value and final XOR `0xFFFFFFFF`). -/
def crc32 (bs : Bytes) : Nat := crcFold 4294967295 bs ^^^ 4294967295

theorem crcStep_lt {c : Nat} (h : c < 4294967296) : crcStep c < 4294967296 := by
  unfold crcStep
  split
  · have h1 : c / 2 < 4294967296 := by omega
    have h2 : crcPoly < 4294967296 := by norm_num [crcPoly]
    calc (c / 2) ^^^ crcPoly < 2 ^ 32 :=
          Nat.xor_lt_two_pow (by norm_num at h1 ⊢; omega) (by norm_num [crcPoly])
    _ = 4294967296 := by norm_num
  · omega

theorem crcStepInv_crcStep {c : Nat} (h : c < 4294967296) :
    crcStepInv (crcStep c) = c := by
  unfold crcStep crcStepInv
  by_cases hodd : c % 2 = 1
  · rw [if_pos hodd]
    have hc2 : c / 2 < 2 ^ 31 := by omega
    have ht : ((c / 2) ^^^ crcPoly).testBit 31 = true := by
      rw [Nat.testBit_xor, Nat.testBit_lt_two_pow hc2]
      norm_num [crcPoly]
      rfl
    rw [if_pos ht, Nat.xor_assoc, Nat.xor_self, Nat.xor_zero]
    omega
  · rw [if_neg hodd]
    have hc2 : c / 2 < 2 ^ 31 := by omega
    rw [if_neg (by rw [Nat.testBit_lt_two_pow hc2]; exact Bool.false_ne_true)]
    omega

theorem crcStep_inj {a b : Nat} (ha : a < 4294967296) (hb : b < 4294967296)
    (h : crcStep a = crcStep b) : a = b := by
  have := crcStepInv_crcStep ha
  rw [h, crcStepInv_crcStep hb] at this
  exact this.symm

theorem crcIter_lt (n : Nat) {c : Nat} (h : c < 4294967296) :
    crcStep^[n] c < 4294967296 := by
  induction n generalizing c with
  | zero => simpa using h
  | succ n ih =>
    rw [Function.iterate_succ_apply]
    exact ih (crcStep_lt h)

theorem crcIter_inj (n : Nat) {a b : Nat} (ha : a < 4294967296) (hb : b < 4294967296)
    (h : crcStep^[n] a = crcStep^[n] b) : a = b := by
  induction n generalizing a b with
  | zero => simpa using h
  | succ n ih =>
    rw [Function.iterate_succ_apply, Function.iterate_succ_apply] at h
    exact crcStep_inj ha hb (ih (crcStep_lt ha) (crcStep_lt hb) h)

theorem crcUpdate_lt {c b : Nat} (hc : c < 4294967296) (hb : b < 256) :
    crcUpdate c b < 4294967296 := by
  unfold crcUpdate
  refine crcIter_lt 8 ?_
  have : c ^^^ b < 2 ^ 32 := Nat.xor_lt_two_pow (by norm_num; omega) (by norm_num; omega)
  norm_num at this ⊢
  omega

theorem crcUpdate_injState {c1 c2 b : Nat} (h1 : c1 < 4294967296)
    (h2 : c2 < 4294967296) (hb : b < 256)
    (h : crcUpdate c1 b = crcUpdate c2 b) : c1 = c2 := by
  unfold crcUpdate at h
  have hx1 : c1 ^^^ b < 4294967296 := by
    have : c1 ^^^ b < 2 ^ 32 :=
      Nat.xor_lt_two_pow (by norm_num; omega) (by norm_num; omega)
    norm_num at this ⊢
    omega
  have hx2 : c2 ^^^ b < 4294967296 := by
    have : c2 ^^^ b < 2 ^ 32 :=
      Nat.xor_lt_two_pow (by norm_num; omega) (by norm_num; omega)
    norm_num at this ⊢
    omega
  have := crcIter_inj 8 hx1 hx2 h
  have h3 : (c1 ^^^ b) ^^^ b = (c2 ^^^ b) ^^^ b := by rw [this]
  rwa [Nat.xor_assoc, Nat.xor_self, Nat.xor_zero, Nat.xor_assoc, Nat.xor_self,
    Nat.xor_zero] at h3

theorem crcUpdate_injByte {c b1 b2 : Nat} (hc : c < 4294967296)
    (hb1 : b1 < 256) (hb2 : b2 < 256)
    (h : crcUpdate c b1 = crcUpdate c b2) : b1 = b2 := by
  unfold crcUpdate at h
  have hx1 : c ^^^ b1 < 4294967296 := by
    have : c ^^^ b1 < 2 ^ 32 :=
      Nat.xor_lt_two_pow (by norm_num; omega) (by norm_num; omega)
    norm_num at this ⊢
    omega
  have hx2 : c ^^^ b2 < 4294967296 := by
    have : c ^^^ b2 < 2 ^ 32 :=
      Nat.xor_lt_two_pow (by norm_num; omega) (by norm_num; omega)
    norm_num at this ⊢
    omega
  have := crcIter_inj 8 hx1 hx2 h
  have h3 : c ^^^ (c ^^^ b1) = c ^^^ (c ^^^ b2) := by rw [this]
  rwa [← Nat.xor_assoc, Nat.xor_self, Nat.zero_xor, ← Nat.xor_assoc, Nat.xor_self,
    Nat.zero_xor] at h3

theorem crcFold_lt {init : Nat} (bs : Bytes) (hi : init < 4294967296)
    (hb : ∀ b ∈ bs, b < 256) : crcFold init bs < 4294967296 := by
  induction bs generalizing init with
  | nil => simpa [crcFold] using hi
  | cons b bs ih =>
    rw [crcFold, List.foldl_cons]
    exact ih (crcUpdate_lt hi (hb b (by simp))) (fun x hx => hb x (by simp [hx]))

theorem crcFold_inj {s1 s2 : Nat} (suf : Bytes) (h1 : s1 < 4294967296)
    (h2 : s2 < 4294967296) (hb : ∀ b ∈ suf, b < 256)
    (h : crcFold s1 suf = crcFold s2 suf) : s1 = s2 := by
  induction suf generalizing s1 s2 with
  | nil => simpa [crcFold] using h
  | cons b bs ih =>
    rw [crcFold, List.foldl_cons, crcFold, List.foldl_cons] at h
    have hb0 : b < 256 := hb b (by simp)
    have := ih (crcUpdate_lt h1 hb0) (crcUpdate_lt h2 hb0)
      (fun x hx => hb x (by simp [hx])) h
    exact crcUpdate_injState h1 h2 hb0 this

/-- Changing one byte of a message always changes its CRC-32. -/
theorem crc32_single_byte_change (pre suf : Bytes) (b1 b2 : Nat)
    (hpre : ∀ b ∈ pre, b < 256) (hsuf : ∀ b ∈ suf, b < 256)
    (hb1 : b1 < 256) (hb2 : b2 < 256) (hne : b1 ≠ b2) :
    crc32 (pre ++ b1 :: suf) ≠ crc32 (pre ++ b2 :: suf) := by
  unfold crc32 crcFold
  intro h
  have hxor : (List.foldl crcUpdate 4294967295 (pre ++ b1 :: suf) ^^^ 4294967295) ^^^ 4294967295
      = (List.foldl crcUpdate 4294967295 (pre ++ b2 :: suf) ^^^ 4294967295) ^^^ 4294967295 := by
    rw [h]
  rw [Nat.xor_assoc, Nat.xor_self, Nat.xor_zero, Nat.xor_assoc, Nat.xor_self,
    Nat.xor_zero] at hxor
  rw [List.foldl_append, List.foldl_append, List.foldl_cons, List.foldl_cons] at hxor
  have hs : List.foldl crcUpdate 4294967295 pre < 4294967296 :=
    crcFold_lt pre (by norm_num) hpre
  have hu1 : crcUpdate (List.foldl crcUpdate 4294967295 pre) b1 < 4294967296 :=
    crcUpdate_lt hs hb1
  have hu2 : crcUpdate (List.foldl crcUpdate 4294967295 pre) b2 < 4294967296 :=
    crcUpdate_lt hs hb2
  have := crcFold_inj suf hu1 hu2 hsuf hxor
  exact hne (crcUpdate_injByte hs hb1 hb2 this)

/-! ## ContainerCodec

Modelled from the spec: §4.5 — the archive is a directory of entries, each
carrying a stored name (the member name plus a fixed suffix), a compression
method, the CRC-32 of the uncompressed ArrayCodec bytes, sizes, and the
possibly-compressed data.  The claims quantify over members, names and
checksums, so the archive is modelled at entry granularity (the surrounding
local-header/central-directory framing adds only fixed bookkeeping bytes).
The deflate bit-stream transform is performed by an external library
(RFC 1951), outside this repository; it is modelled byte-preserving so the
checksum discipline can be analysed exactly. -/

/-- Per-member compression method (§4.5). -/
inductive CompressionMethod where
  | stored
  | deflated
deriving DecidableEq

/-- Wire code of a compression method (zip method ids: 0 stored, 8 deflate). -/
def methodCode : CompressionMethod → Nat
  | .stored => 0
  | .deflated => 8

/-- Modelled from the spec: the member transform.  `stored` is the identity;
`deflate` is external to the repository and modelled byte-preserving. -/
def compressBytes : CompressionMethod → Bytes → Bytes
  | _, bs => bs

/-- Modelled from the spec: inverse transform by wire code; unknown codes
fail with `UnsupportedCompressionMethod`. -/
def decompressCode (m : Nat) (bs : Bytes) : Except NpyError Bytes :=
  if m = 0 ∨ m = 8 then .ok bs else .error .unsupportedCompressionMethod

/-- One archive entry (§4.5's local entry, at entry granularity). -/
structure RawEntry where
  storedName : Bytes
  method : Nat
  crc : Nat
  uncompressedSize : Nat
  data : Bytes

/-- The fixed suffix appended to member names (`.npy`). -/
def npySuffix : Bytes := strBytes ".npy"

/-- Modelled from the spec: §4.5 encode of one member — suffix the name,
checksum the uncompressed bytes, then compress. -/
def encodeMember (name : Bytes) (arr : Bytes) (m : CompressionMethod) : RawEntry :=
  { storedName := name ++ npySuffix
    method := methodCode m
    crc := crc32 arr
    uncompressedSize := arr.length
    data := compressBytes m arr }

/-- Modelled from the spec: §4.5 — encode every member in order. -/
def encodeContainer (m : CompressionMethod) (members : List (Bytes × Bytes)) :
    List RawEntry :=
  members.map (fun nb => encodeMember nb.1 nb.2 m)

/-- De-suffix a stored entry name, failing `MalformedMemberName` when the
suffix is absent. -/
def decodeMemberName (s : Bytes) : Except NpyError Bytes :=
  if npySuffix.isSuffixOf s then .ok (s.take (s.length - 4))
  else .error .malformedMemberName

/-- Modelled from the spec: §4.5 decode of one entry — recover the member
name, undo the transform, verify the checksum (fail `ChecksumMismatch`). -/
def decodeEntry (e : RawEntry) : Except NpyError (Bytes × Bytes) :=
  match decodeMemberName e.storedName with
  | .error err => .error err
  | .ok name =>
    match decompressCode e.method e.data with
    | .error err => .error err
    | .ok u =>
      if crc32 u = e.crc then .ok (name, u) else .error .checksumMismatch

theorem decodeMemberName_suffixed (n : Bytes) :
    decodeMemberName (n ++ npySuffix) = .ok n := by
  unfold decodeMemberName
  rw [if_pos (List.isSuffixOf_iff_suffix.mpr (List.suffix_append n npySuffix))]
  have hlen : (n ++ npySuffix).length - 4 = n.length := by
    simp [npySuffix, strBytes]
  rw [hlen, List.take_left]

theorem decodeMemberName_unsuffixed {s : Bytes} (h : ¬ npySuffix <:+ s) :
    decodeMemberName s = .error .malformedMemberName := by
  unfold decodeMemberName
  rw [if_neg (by rwa [List.isSuffixOf_iff_suffix])]

/-- Round trip for one member. -/
theorem decodeEntry_encodeMember (name arr : Bytes) (m : CompressionMethod) :
    decodeEntry (encodeMember name arr m) = .ok (name, arr) := by
  unfold decodeEntry encodeMember
  rw [decodeMemberName_suffixed]
  have hm : decompressCode (methodCode m) (compressBytes m arr) = .ok arr := by
    cases m <;> rfl
  rw [hm]
  dsimp only
  rw [if_pos rfl]

/-- Corrupting any single byte of an entry's stored data makes its decode
fail with `ChecksumMismatch`. -/
theorem decodeEntry_corrupt (name arr : Bytes) (m : CompressionMethod)
    (j : Nat) (b2 : Nat) (hj : j < arr.length)
    (harr : ∀ b ∈ arr, b < 256) (hb2 : b2 < 256)
    (hne : b2 ≠ arr.get ⟨j, hj⟩) :
    decodeEntry { encodeMember name arr m with data := (encodeMember name arr m).data.set j b2 }
      = .error .checksumMismatch := by
  unfold decodeEntry encodeMember
  dsimp only
  rw [decodeMemberName_suffixed]
  have hdata : (compressBytes m arr).set j b2 = arr.set j b2 := by
    cases m <;> rfl
  rw [hdata]
  have hm : decompressCode (methodCode m) (arr.set j b2) = .ok (arr.set j b2) := by
    cases m <;> rfl
  rw [hm]
  dsimp only
  rw [if_neg]
  have hset : arr.set j b2 = arr.take j ++ b2 :: arr.drop (j + 1) :=
    List.set_eq_take_cons_drop b2 hj
  have horig : arr = arr.take j ++ arr.get ⟨j, hj⟩ :: arr.drop (j + 1) := by
    conv_lhs => rw [← List.take_append_drop j arr]
    congr 1
    rw [← List.getElem_cons_drop arr j hj]
    rfl
  have horig2 : crc32 arr = crc32 (arr.take j ++ arr.get ⟨j, hj⟩ :: arr.drop (j + 1)) := by
    conv_lhs => rw [horig]
  rw [hset, horig2]
  exact crc32_single_byte_change (arr.take j) (arr.drop (j + 1)) b2 (arr.get ⟨j, hj⟩)
    (fun b hb => harr b (List.mem_of_mem_take hb))
    (fun b hb => harr b (List.mem_of_mem_drop hb))
    hb2 (harr _ (arr.get_mem _ _)) hne

/-! ## NameAllocator

Modelled from the spec: §4.4 — default names for unnamed members are a fixed
prefix plus a zero-based sequential index, assigned in addition order,
skipping any index whose generated name collides with an explicitly-supplied
name in the same container. -/

/-- The default name for index `i`: `arr_<i>`. -/
def defName (i : Nat) : Bytes := strBytes "arr_" ++ natChars i

/-- First index at or above `ctr` whose default name avoids the explicit
names.  The fuel bounds the scan; callers pass `explicit.length + 1`, which
always suffices because default names are pairwise distinct. -/
def nextFree (explicit : List Bytes) : Nat → Nat → Nat
  | 0, ctr => ctr
  | fuel + 1, ctr =>
    if defName ctr ∈ explicit then nextFree explicit fuel (ctr + 1) else ctr

/-- Names assigned to `k` unnamed arrays added in order, starting the index
scan at `ctr`. -/
def allocNames (explicit : List Bytes) : Nat → Nat → List Bytes
  | _, 0 => []
  | ctr, k + 1 =>
    let i := nextFree explicit (explicit.length + 1) ctr
    defName i :: allocNames explicit (i + 1) k

/-! ## The structured dtype of the two driver scripts (C10)

The two visible sources build the same structured fixture dtype; one writes
the 16-character text field with `np.str_`, the other with `np.unicode_`. -/

/-- The numpy scalar tokens the two scripts name explicitly. -/
inductive PyScalarTok where
  | npStr
  | npUnicode
  | npFloat64
deriving DecidableEq

/-- Modelled from the spec (§1 fixed-width text fields; §8 scenario 3
describes both scripts' structured fixture as one and the same): `np.str_`
and `np.unicode_` are numpy aliases for the same wide-character fixed-width
text scalar; on the little-endian platforms the fixtures target a
16-character field is `<U16`, and `np.float64` is `<f8`. -/
def pyScalarDType : PyScalarTok → Nat → DType
  | .npStr, n => .text .wideChar n .little
  | .npUnicode, n => .text .wideChar n .little
  | .npFloat64, _ => .prim .float 8 .little

/-- `dt_structured` as built by `example/assets/genfiles.py` (line 23, with
`np.str_`). -/
def dtStructuredExample : DType :=
  .structured (.cons (strBytes "name") (pyScalarDType .npStr 16) []
    (.cons (strBytes "grades") (pyScalarDType .npFloat64 8) [2] .nil))

/-- `dt_structured` as built by `examples/assets/genfiles.py` (line 23, with
`np.unicode_`). -/
def dtStructuredExamples : DType :=
  .structured (.cons (strBytes "name") (pyScalarDType .npUnicode 16) []
    (.cons (strBytes "grades") (pyScalarDType .npFloat64 8) [2] .nil))

/-! ## Concrete fixtures -/

/-- The country sub-record of the nested fixture dtype
(`genfiles.py` lines 29–33). -/
def dtCountry : Fields :=
  .cons (strBytes "country") (.text .wideChar 16 .little) []
    (.cons (strBytes "gdp") (.prim .uint 8 .little) [] .nil)

/-- `dt_nested` of `example/assets/genfiles.py`: a two-level nested record. -/
def dtNested : DType :=
  .structured (.cons (strBytes "year") (.prim .uint 4 .little) []
    (.cons (strBytes "countries") (.structured (
      .cons (strBytes "c1") (.structured dtCountry) []
        (.cons (strBytes "c2") (.structured dtCountry) []
          (.cons (strBytes "c3") (.structured dtCountry) [] .nil)))) [] .nil))

/-- The canonical descriptor text of the nested fixture dtype. -/
def nestedDescrText : Bytes :=
  strBytes "[('year', '<u4'), ('countries', [('c1', [('country', '<U16'), ('gdp', '<u8')]), ('c2', [('country', '<U16'), ('gdp', '<u8')]), ('c3', [('country', '<U16'), ('gdp', '<u8')])])]"

theorem le4val_le4_mod (n : Nat) :
    le4val (n % 256) (n / 256 % 256) (n / 65536 % 256) (n / 16777216 % 256)
      = n % 4294967296 := by
  unfold le4val
  omega

set_option maxRecDepth 10000

/-! ## The claims -/

/-- C1: For every valid input `x = (descriptor, shape, element order, payload)`
whose payload length satisfies §3's size invariant (and whose rendered header
fits the wire format's 4-byte length field), decoding the encoded
single-array byte stream reproduces `x` exactly, including byte-for-byte
identical descriptor text. -/
theorem single_array_roundtrip (descr : DType) (order : Bool) (shape : List Nat)
    (p : Bytes) (hv : validD descr = true)
    (hsize : p.length = expectedSize ⟨descr, order, shape⟩)
    (hbound : storedLen 12 (headerText ⟨descr, order, shape⟩).length < 4294967296) :
    ∃ bs, encodeArray ⟨descr, order, shape⟩ p = .ok bs ∧
      decodeArray bs = .ok (⟨descr, order, shape⟩, p) ∧
      ∀ (h2 : ArrayHeader) (p2 : Bytes), decodeArray bs = .ok (h2, p2) →
        serDescr h2.descr = serDescr descr ∧ h2.shape = shape ∧
        h2.fortranOrder = order ∧ p2 = p := by
  obtain ⟨he, hd⟩ := decodeArray_encodeArray ⟨descr, order, shape⟩ p hv hsize hbound
  refine ⟨encodeHeader ⟨descr, order, shape⟩ ++ p, he, hd, ?_⟩
  intro h2 p2 h22
  rw [hd] at h22
  simp only [Except.ok.injEq, Prod.mk.injEq] at h22
  obtain ⟨hh, hp⟩ := h22
  subst hh hp
  exact ⟨rfl, rfl, rfl, rfl⟩

/-- Witness for C1: the big-endian complex 3×3 fixture of `genfiles.py`. -/
theorem single_array_roundtrip_witness :
    ∃ bs, encodeArray ⟨.cplx 4 .big, false, [3, 3]⟩ (List.replicate 72 0) = .ok bs ∧
      decodeArray bs = .ok (⟨.cplx 4 .big, false, [3, 3]⟩, List.replicate 72 0) ∧
      ∀ (h2 : ArrayHeader) (p2 : Bytes), decodeArray bs = .ok (h2, p2) →
        serDescr h2.descr = serDescr (.cplx 4 .big) ∧ h2.shape = [3, 3] ∧
        h2.fortranOrder = false ∧ p2 = List.replicate 72 0 :=
  single_array_roundtrip (.cplx 4 .big) false [3, 3] (List.replicate 72 0)
    (by rfl) (by rfl) (by decide)

/-- C2: The header text is right-padded with spaces and terminated with one
newline so that the whole preamble is a multiple of 64 bytes; consequently
the payload of every encoded stream begins at a 64-byte-aligned offset. -/
theorem header_padding_and_alignment (h : ArrayHeader) (p : Bytes) :
    (∃ vl k, encodeHeader h =
      magicBytes ++ vl ++ (headerText h ++ (List.replicate k 32 ++ [10]))) ∧
    (encodeHeader h).length % 64 = 0 ∧
    (∀ bs, encodeArray h p = .ok bs → bs.drop (encodeHeader h).length = p) := by
  refine ⟨?_, encodeHeader_length_mod h, ?_⟩
  · unfold encodeHeader
    dsimp only
    split
    · exact ⟨[1, 0] ++ le2 (storedLen 10 (headerText h).length),
        padCount 10 (headerText h).length, by simp [storedBlock, List.append_assoc]⟩
    · exact ⟨[2, 0] ++ le4 (storedLen 12 (headerText h).length),
        padCount 12 (headerText h).length, by simp [storedBlock, List.append_assoc]⟩
  · intro bs hbs
    unfold encodeArray at hbs
    split at hbs
    · simp only [Except.ok.injEq] at hbs
      subst hbs
      rw [List.drop_left]
    · exact absurd hbs (by simp)

/-- Witness for C2: an 8-byte scalar payload decodes from its aligned offset. -/
theorem header_padding_and_alignment_witness :
    (encodeHeader ⟨.prim .int 8 .little, false, []⟩ ++ List.replicate 8 0).drop
      (encodeHeader ⟨.prim .int 8 .little, false, []⟩).length = List.replicate 8 0 :=
  (header_padding_and_alignment ⟨.prim .int 8 .little, false, []⟩
    (List.replicate 8 0)).2.2 _ (by rfl)

/-- C3: The encoder selects version (1,0) with a 2-byte little-endian length
field exactly when the padded header text fits in 65535 bytes under the
2-byte layout, and otherwise version (2,0) with a 4-byte little-endian
field; the field counts exactly the header-text bytes that follow, trailing
padding and newline included. -/
theorem version_selection_rule (h : ArrayHeader) :
    (storedLen 10 (headerText h).length ≤ 65535 →
      encodeHeader h = magicBytes ++ [1, 0] ++
        le2 (storedLen 10 (headerText h).length) ++ storedBlock 10 (headerText h) ∧
      (storedBlock 10 (headerText h)).length = storedLen 10 (headerText h).length ∧
      ∃ b0 b1, le2 (storedLen 10 (headerText h).length) = [b0, b1] ∧
        le2val b0 b1 = storedLen 10 (headerText h).length) ∧
    (65535 < storedLen 10 (headerText h).length →
      encodeHeader h = magicBytes ++ [2, 0] ++
        le4 (storedLen 12 (headerText h).length) ++ storedBlock 12 (headerText h) ∧
      (storedBlock 12 (headerText h)).length = storedLen 12 (headerText h).length ∧
      ∃ b0 b1 b2 b3, le4 (storedLen 12 (headerText h).length) = [b0, b1, b2, b3] ∧
        le4val b0 b1 b2 b3 = storedLen 12 (headerText h).length % 4294967296) := by
  constructor
  · intro hc
    refine ⟨?_, storedBlock_length _ _, ?_⟩
    · unfold encodeHeader
      dsimp only
      rw [if_pos hc]
    · exact ⟨_, _, rfl, le2val_le2 _ (by omega)⟩
  · intro hc
    refine ⟨?_, storedBlock_length _ _, ?_⟩
    · unfold encodeHeader
      dsimp only
      rw [if_neg (by omega)]
    · exact ⟨_, _, _, _, rfl, le4val_le4_mod _⟩

/-- Witness for C3: a small header selects the 2-byte version. -/
theorem version_selection_rule_witness :
    encodeHeader ⟨.prim .int 8 .little, false, [2, 3]⟩ = magicBytes ++ [1, 0] ++
      le2 (storedLen 10 (headerText ⟨.prim .int 8 .little, false, [2, 3]⟩).length) ++
      storedBlock 10 (headerText ⟨.prim .int 8 .little, false, [2, 3]⟩) ∧
    (storedBlock 10 (headerText ⟨.prim .int 8 .little, false, [2, 3]⟩)).length =
      storedLen 10 (headerText ⟨.prim .int 8 .little, false, [2, 3]⟩).length ∧
    ∃ b0 b1, le2 (storedLen 10 (headerText ⟨.prim .int 8 .little, false, [2, 3]⟩).length)
        = [b0, b1] ∧
      le2val b0 b1 = storedLen 10 (headerText ⟨.prim .int 8 .little, false, [2, 3]⟩).length :=
  (version_selection_rule ⟨.prim .int 8 .little, false, [2, 3]⟩).1 (by decide)

/-- C4: Encode fails with `PayloadSizeMismatch` exactly when the payload
length violates §3's size invariant — in which case no bytes are emitted
(`PayloadSizeMismatch` is the only encode error and carries no output) — and
a shape containing a zero dimension with an empty payload encodes
successfully. -/
theorem payload_size_check (h : ArrayHeader) (p : Bytes) :
    (encodeArray h p = .error .payloadSizeMismatch ↔ p.length ≠ expectedSize h) ∧
    (∀ e, encodeArray h p = .error e → e = .payloadSizeMismatch) ∧
    (0 ∈ h.shape → p = [] → ∃ bs, encodeArray h p = .ok bs) := by
  refine ⟨⟨?_, ?_⟩, ?_, ?_⟩
  · intro he
    unfold encodeArray at he
    split at he
    · exact absurd he (by simp)
    · assumption
  · intro hne
    unfold encodeArray
    rw [if_neg hne]
  · intro e he
    unfold encodeArray at he
    split at he
    · exact absurd he (by simp)
    · simp only [Except.error.injEq] at he
      exact he.symm
  · intro h0 hp
    subst hp
    have hz : expectedSize h = 0 := by
      unfold expectedSize shapeProd
      have hprod : h.shape.prod = 0 := List.prod_eq_zero h0
      rw [List.prod_eq_foldl] at hprod
      rw [hprod, Nat.zero_mul]
    exact ⟨encodeHeader h ++ [], by unfold encodeArray; rw [if_pos (by simp [hz])]⟩

/-- Witness for C4: a zero dimension with an empty payload encodes. -/
theorem payload_size_check_witness :
    ∃ bs, encodeArray ⟨.prim .int 8 .little, false, [2, 0, 3]⟩ [] = .ok bs :=
  (payload_size_check ⟨.prim .int 8 .little, false, [2, 0, 3]⟩ []).2.2 (by decide) rfl

/-- C5: Each encoded member stores the CRC-32 of the uncompressed ArrayCodec
bytes (computed before compression); corrupting any single byte of a
member's stored bytes makes that member's decode fail with
`ChecksumMismatch`, while every other member still decodes correctly. -/
theorem container_checksum_isolation (m : CompressionMethod)
    (members : List (Bytes × Bytes)) (i j b2 : Nat)
    (hi : i < members.length)
    (hbytes : ∀ nb ∈ members, ∀ b ∈ nb.2, b < 256)
    (hj : j < (members.get ⟨i, hi⟩).2.length)
    (hb2 : b2 < 256)
    (hne : b2 ≠ (members.get ⟨i, hi⟩).2.get ⟨j, hj⟩) :
    encodeContainer m members = members.map (fun nb => encodeMember nb.1 nb.2 m) ∧
    (encodeMember (members.get ⟨i, hi⟩).1 (members.get ⟨i, hi⟩).2 m).crc
      = crc32 (members.get ⟨i, hi⟩).2 ∧
    decodeEntry { encodeMember (members.get ⟨i, hi⟩).1 (members.get ⟨i, hi⟩).2 m with
        data := (encodeMember (members.get ⟨i, hi⟩).1 (members.get ⟨i, hi⟩).2 m).data.set j b2 }
      = .error .checksumMismatch ∧
    ∀ (k : Nat) (hk : k < members.length), k ≠ i →
      decodeEntry (encodeMember (members.get ⟨k, hk⟩).1 (members.get ⟨k, hk⟩).2 m)
        = .ok ((members.get ⟨k, hk⟩).1, (members.get ⟨k, hk⟩).2) := by
  refine ⟨rfl, rfl, ?_, ?_⟩
  · exact decodeEntry_corrupt _ _ m j b2 hj
      (hbytes _ (members.get_mem _ _)) hb2 hne
  · intro k hk hkne
    exact decodeEntry_encodeMember _ _ m

/-- Witness for C5: a two-member compressed container, first member corrupted
at byte 1. -/
theorem container_checksum_isolation_witness :
    encodeContainer .deflated [(strBytes "a", [1, 2, 3]), (strBytes "b", [4, 5])] =
      [(strBytes "a", ([1, 2, 3] : Bytes)), (strBytes "b", [4, 5])].map
        (fun nb => encodeMember nb.1 nb.2 .deflated) ∧
    (encodeMember (strBytes "a") [1, 2, 3] .deflated).crc = crc32 [1, 2, 3] ∧
    decodeEntry { encodeMember (strBytes "a") [1, 2, 3] .deflated with
        data := (encodeMember (strBytes "a") [1, 2, 3] .deflated).data.set 1 9 }
      = .error .checksumMismatch ∧
    ∀ (k : Nat) (hk : k < 2), k ≠ 0 →
      decodeEntry (encodeMember
          (([(strBytes "a", ([1, 2, 3] : Bytes)), (strBytes "b", [4, 5])].get ⟨k, hk⟩).1)
          (([(strBytes "a", ([1, 2, 3] : Bytes)), (strBytes "b", [4, 5])].get ⟨k, hk⟩).2)
          .deflated)
        = .ok (([(strBytes "a", ([1, 2, 3] : Bytes)), (strBytes "b", [4, 5])].get ⟨k, hk⟩).1,
          ([(strBytes "a", ([1, 2, 3] : Bytes)), (strBytes "b", [4, 5])].get ⟨k, hk⟩).2) :=
  container_checksum_isolation .deflated
    [(strBytes "a", [1, 2, 3]), (strBytes "b", [4, 5])] 0 1 9
    (by decide) (by decide) (by decide) (by decide) (by decide)

/-- C6: Default names are a fixed prefix plus a zero-based sequential index,
assigned in addition order, skipping indices whose generated name collides
with an explicit name: three unnamed arrays get `arr_0, arr_1, arr_2`, and
an unnamed array whose next generated name is taken by an explicit name gets
the index one higher. -/
theorem default_name_allocation :
    (∀ (explicit : List Bytes) (ctr fuel : Nat), defName ctr ∉ explicit →
      nextFree explicit (fuel + 1) ctr = ctr) ∧
    (∀ (explicit : List Bytes) (ctr fuel : Nat), defName ctr ∈ explicit →
      defName (ctr + 1) ∉ explicit → nextFree explicit (fuel + 2) ctr = ctr + 1) ∧
    allocNames [] 0 3 = [strBytes "arr_0", strBytes "arr_1", strBytes "arr_2"] ∧
    allocNames [strBytes "arr_0"] 0 1 = [strBytes "arr_1"] := by
  refine ⟨?_, ?_, rfl, rfl⟩
  · intro ex ctr fuel hmem
    rw [nextFree, if_neg hmem]
  · intro ex ctr fuel hmem hmem2
    rw [nextFree, if_pos hmem, nextFree, if_neg hmem2]

/-- Witness for C6: an explicit `arr_4` pushes the next generated index to 5. -/
theorem default_name_allocation_witness :
    nextFree [strBytes "arr_4"] (0 + 2) 4 = 4 + 1 :=
  (default_name_allocation).2.1 [strBytes "arr_4"] 4 0 (by decide) (by decide)

/-- C7: Serialization is deterministic and the structural inverse of parsing:
every descriptor text the parser accepts re-serializes byte-identically, and
every grammar-valid descriptor parses back from its rendering — including
two levels of nested record fields. -/
theorem descr_text_roundtrip :
    (∀ (s : Bytes) (d : DType) (r : Bytes),
      parseDescrTop s = some (d, r) → s = serDescr d ++ r) ∧
    (∀ d : DType, validD d = true → parseDescrTop (serDescr d) = some (d, [])) := by
  constructor
  · intro s d r hp
    exact parseDescrTop_sound hp
  · intro d hv
    have := parseDescrTop_complete d [] hv
    rwa [List.append_nil] at this

/-- Witness for C7: the two-level nested record descriptor of the fixtures. -/
theorem descr_text_roundtrip_witness :
    nestedDescrText = serDescr dtNested ++ [] :=
  (descr_text_roundtrip).1 nestedDescrText dtNested [] (by rfl)

/-- C8: Every encoded member's stored entry name is the member name with the
fixed suffix appended; decode de-suffixes stored names to recover the
original key and fails `MalformedMemberName` on any name lacking the
suffix. -/
theorem member_name_suffix :
    (∀ (name arr : Bytes) (m : CompressionMethod),
      (encodeMember name arr m).storedName = name ++ npySuffix) ∧
    (∀ n : Bytes, decodeMemberName (n ++ npySuffix) = .ok n) ∧
    (∀ s : Bytes, ¬ npySuffix <:+ s →
      decodeMemberName s = .error .malformedMemberName) :=
  ⟨fun _ _ _ => rfl, decodeMemberName_suffixed, fun _ h => decodeMemberName_unsuffixed h⟩

/-- Witness for C8: a name without the suffix is rejected. -/
theorem member_name_suffix_witness :
    decodeMemberName (strBytes "oops") = .error .malformedMemberName :=
  (member_name_suffix).2.2 (strBytes "oops") (by decide)

/-- C9: On success the encoded stream is exactly the header bytes followed by
the caller's payload buffer unmodified — the codec never transcodes element
bytes, so multi-byte elements keep the byte order the descriptor names. -/
theorem payload_bytes_verbatim (h : ArrayHeader) (p bs : Bytes)
    (hok : encodeArray h p = .ok bs) :
    bs = encodeHeader h ++ p ∧
    bs.take (encodeHeader h).length = encodeHeader h ∧
    bs.drop (encodeHeader h).length = p := by
  unfold encodeArray at hok
  split at hok
  · simp only [Except.ok.injEq] at hok
    subst hok
    exact ⟨rfl, List.take_left _ _, List.drop_left _ _⟩
  · exact absurd hok (by simp)

/-- Witness for C9: the big-endian complex fixture's payload is verbatim. -/
theorem payload_bytes_verbatim_witness :
    encodeHeader ⟨.cplx 4 .big, false, [3, 3]⟩ ++ List.replicate 72 7 =
      encodeHeader ⟨.cplx 4 .big, false, [3, 3]⟩ ++ List.replicate 72 7 ∧
    (encodeHeader ⟨.cplx 4 .big, false, [3, 3]⟩ ++ List.replicate 72 7).take
        (encodeHeader ⟨.cplx 4 .big, false, [3, 3]⟩).length =
      encodeHeader ⟨.cplx 4 .big, false, [3, 3]⟩ ∧
    (encodeHeader ⟨.cplx 4 .big, false, [3, 3]⟩ ++ List.replicate 72 7).drop
        (encodeHeader ⟨.cplx 4 .big, false, [3, 3]⟩).length = List.replicate 72 7 :=
  payload_bytes_verbatim ⟨.cplx 4 .big, false, [3, 3]⟩ (List.replicate 72 7) _ (by rfl)

/-- C10: The two driver scripts' structured fixture dtypes — one written with
`np.str_`, the other with `np.unicode_` — denote the same wide-character
fixed-width text type, so encoding the common (dtype, shape, values) inputs
produces identical byte streams. -/
theorem structured_dtype_scripts_agree :
    dtStructuredExample = dtStructuredExamples ∧
    serDescr dtStructuredExample = serDescr dtStructuredExamples ∧
    ∀ (order : Bool) (shape : List Nat) (p : Bytes),
      encodeArray ⟨dtStructuredExample, order, shape⟩ p =
        encodeArray ⟨dtStructuredExamples, order, shape⟩ p :=
  ⟨rfl, rfl, fun _ _ _ => rfl⟩

end NpyCodec
